import Mathlib

/-!
Shallow embedding of the `market_xml` streaming parser (`src/parser.rs`).

The XML tokenizer (quick-xml) is external to the repository; it is modelled
as a list of already-lexed events.  An empty list plays the role of the
tokenizer's end-of-stream: `quick-xml` keeps returning `Event::Eof` once the
input is exhausted, which corresponds to the `[]` case of each loop below.
Attribute values and text fragments are modelled as already-decoded `String`s,
so the `InvalidUtf8` error variant can never be produced by the model (the
constructor is kept so the error type mirrors `MarketXmlError`).
Line/column positions are abstracted into a single `Nat` counting consumed
events; every error carries the counter's value at the moment of failure,
mirroring how the Rust code snapshots `cur_line`/`cur_column`.
-/

namespace MarketXml

/-- Decidable equality for `Except` results, used to evaluate the model on
concrete inputs. -/
instance {e a : Type _} [DecidableEq e] [DecidableEq a] : DecidableEq (Except e a) := by
  intro x y
  cases x <;> cases y
  case error.error e1 e2 =>
    exact if h : e1 = e2 then .isTrue (by rw [h]) else .isFalse (by intro hc; cases hc; exact h rfl)
  case error.ok e1 a2 => exact .isFalse (by intro hc; cases hc)
  case ok.error a1 e2 => exact .isFalse (by intro hc; cases hc)
  case ok.ok a1 a2 =>
    exact if h : a1 = a2 then .isTrue (by rw [h]) else .isFalse (by intro hc; cases hc; exact h rfl)

/-- One low-level XML event, as produced by the tokenizer.
`start`/`empty` carry the tag name and its (already decoded) attribute list;
`endTag` a closing tag; `text`/`cdata` character content; `comment` stands for
the remaining event kinds (comments, declarations, processing instructions)
that the Rust code receives and matches with a wildcard arm. -/
inductive Event where
  | start (name : String) (attrs : List (String × String))
  | empty (name : String) (attrs : List (String × String))
  | endTag (name : String)
  | text (s : String)
  | cdata (s : String)
  | comment (s : String)
deriving DecidableEq

/-- An attribute: key and decoded value. -/
abbrev Attr := String × String

/-- The tokenizer-level failures wrapped by `MarketXmlError::Xml`
(`quick_xml::Error`); only the variants the parser itself constructs are
modelled. -/
inductive XmlErr where
  | unexpectedEof (what : String)
  | textNotFound
deriving DecidableEq

/-- `MarketXmlError` from `src/parser.rs`.  `xml` is the spec's
`SyntaxError`; `validation` is the spec's `ValidationError` and carries the
offending literal.  Error message strings built with `format!` in Rust are
abstracted to short constants. -/
inductive MarketXmlError where
  | xml (source : XmlErr) (pos : Nat)
  | unexpectedTag (tag : String) (pos : Nat)
  | invalidUtf8 (msg : String) (value : String) (pos : Nat)
  | validation (msg : String) (pos : Nat) (value : String)
deriving DecidableEq

/-- Modelled from the spec: the `Currency` record of the prost-generated
`market_xml` module (generated protobuf code, not under `src/`): `id`, `rate`,
`plus` are strings kept as raw text, defaulting to empty. -/
structure Currency where
  id : String := ""
  rate : String := ""
  plus : String := ""
deriving DecidableEq

/-- Modelled from the spec: the `Category` record of the prost-generated
`market_xml` module: `id`/`parent_id` unsigned integers defaulting to 0
(0 = no parent), `name` the tag's text content. -/
structure Category where
  id : Nat := 0
  parent_id : Nat := 0
  name : String := ""
deriving DecidableEq

/-- Modelled from the spec: the `DeliveryOption` record of the prost-generated
`market_xml` module: `cost` unsigned integer, `days` free-form string,
`order_before` optional unsigned integer (absent attribute means no value). -/
structure DeliveryOption where
  cost : Nat := 0
  days : String := ""
  order_before : Option Nat := none
deriving DecidableEq

/-- Modelled from the spec: the `Price` record of the prost-generated
`market_xml` module: a decimal price (modelled as `Rat`; the Rust code uses a
32-bit float whose rounding is not claim-relevant) and the `from` flag. -/
structure Price where
  price : Rat := 0
  «from» : Bool := false
deriving DecidableEq

/-- Modelled from the spec: the `Param` record of the prost-generated
`market_xml` module: the value is the tag's text content, the rest are
attributes; all strings default to empty. -/
structure Param where
  name : String := ""
  unit : String := ""
  value : String := ""
  id : String := ""
  value_id : String := ""
deriving DecidableEq

/-- Modelled from the spec: the `Condition` record of the prost-generated
`market_xml` module: `type` attribute and nested `reason` tag text. -/
structure Condition where
  type : String := ""
  reason : String := ""
deriving DecidableEq

/-- Modelled from the spec: the `Shop` record of the prost-generated
`market_xml` module: three strings plus the ordered currency, category and
delivery-option lists, all defaulting to empty. -/
structure Shop where
  name : String := ""
  company : String := ""
  url : String := ""
  currencies : List Currency := []
  categories : List Category := []
  delivery_options : List DeliveryOption := []
deriving DecidableEq

/-- Modelled from the spec: the `YmlCatalog` record (the spec's
`CatalogHeader`) of the prost-generated `market_xml` module: a `date` string
and zero-or-one `Shop`. -/
structure YmlCatalog where
  date : String := ""
  shop : Option Shop := none
deriving DecidableEq

/-- Modelled from the spec: the `Offer` record of the prost-generated
`market_xml` module, with prost defaults (strings empty, numerics zero,
booleans false, optionals unset, lists empty).  `weight` is modelled as `Rat`
(32-bit float in Rust); `min_quantity` is a field present in the code but not
in the spec's field list, modelled as an optional unsigned integer from its
`read_opt` call site. -/
structure Offer where
  id : String := ""
  type : String := ""
  bid : Nat := 0
  cbid : Nat := 0
  available : Option Bool := none
  name : String := ""
  vendor : String := ""
  vendor_code : String := ""
  url : String := ""
  picture : String := ""
  price : Option Price := none
  old_price : Option Price := none
  currency_id : String := ""
  category_id : Nat := 0
  description : String := ""
  sales_notes : String := ""
  delivery : Option Bool := none
  pickup : Option Bool := none
  store : Option Bool := none
  downloadable : Bool := false
  enable_auto_discounts : Bool := false
  min_quantity : Option Nat := none
  manufacturer_warranty : Bool := false
  barcodes : List String := []
  params : List Param := []
  condition : Option Condition := none
  credit_template_id : String := ""
  country_of_origin : String := ""
  weight : Rat := 0
  dimensions : String := ""
  delivery_options : List DeliveryOption := []
  pickup_options : List DeliveryOption := []
deriving DecidableEq

/-- The parser's five top-level states (`State` in `src/parser.rs`). -/
inductive State where
  | begin
  | ymlCatalog
  | shop
  | offers
  | end_
deriving DecidableEq

/-- `ParsedItem`: the tagged result of one `next_item` call. -/
inductive ParsedItem where
  | offer (o : Offer)
  | ymlCatalog (yc : YmlCatalog)
  | eof
deriving DecidableEq

/-! ### Scalar coercions (Rust `FromStr` models) -/

/-- Numeric value of a list of ASCII digit characters (most significant
first); helper for the `FromStr` models. -/
def natOfDigits (l : List Char) : Nat :=
  l.foldl (fun a c => a * 10 + (c.toNat - 48)) 0

/-- Rust's `u64::from_str`: an optional leading `+`, then one or more ASCII
digits, rejecting values that overflow 64 bits. -/
def rustParseU64 (s : String) : Option Nat :=
  let l := match s.toList with
    | '+' :: r => r
    | r => r
  if l ≠ [] ∧ l.all (·.isDigit) ∧ natOfDigits l < 2 ^ 64 then
    some (natOfDigits l)
  else
    none

/-- Rust's `bool::from_str`: exactly `"true"` or `"false"`. -/
def rustParseBool (s : String) : Option Bool :=
  if s = "true" then some true
  else if s = "false" then some false
  else none

/-- Rust's `f32::from_str`, restricted to the plain-decimal subset
`[+-]? digits [. digits]` that the feeds use; the value is kept exact as a
`Rat` (float rounding is not claim-relevant). -/
def rustParseDecimal (s : String) : Option Rat :=
  let (neg, l) : Bool × List Char := match s.toList with
    | '-' :: r => (true, r)
    | '+' :: r => (false, r)
    | r => (false, r)
  let intPart := l.takeWhile (·.isDigit)
  let rest := l.dropWhile (·.isDigit)
  let mag : Option Rat := match rest with
    | [] => if intPart = [] then none else some (natOfDigits intPart)
    | '.' :: frac =>
      if frac.all (·.isDigit) ∧ (intPart ≠ [] ∨ frac ≠ []) then
        some ((natOfDigits intPart : Rat) + (natOfDigits frac : Rat) / (10 ^ frac.length : Rat))
      else none
    | _ => none
  mag.map (fun m => if neg then -m else m)

/-- Rust's `str::trim`: drop whitespace characters from both ends.  (Defined
over the character list so that it evaluates on concrete inputs.) -/
def rustTrim (s : String) : String :=
  ⟨((s.data.dropWhile (·.isWhitespace)).reverse.dropWhile (·.isWhitespace)).reverse⟩

/-! ### Attribute-level coercions -/

/-- `decode_value`: decodes raw attribute bytes to text.  In the model
attribute values are already decoded, so this always succeeds (the Rust
`InvalidUtf8` path is unreachable here). -/
def decode_value (v : String) : Except MarketXmlError String := .ok v

/-- `parse_value` (attribute form): decode then coerce; a coercion failure is
an immediate `Validation` error carrying the offending literal. -/
def parse_value (p : String → Option α) (v : String) (pos : Nat) :
    Except MarketXmlError α :=
  match decode_value v with
  | .error e => .error e
  | .ok s =>
    match p s with
    | some x => .ok x
    | none => .error (.validation "parse" pos s)

/-- `parse_opt` (attribute form): empty raw value is `none`; otherwise decode
and coerce, failure being a `Validation` error with the literal. -/
def parse_opt (p : String → Option α) (v : String) (pos : Nat) :
    Except MarketXmlError (Option α) :=
  if v = "" then .ok none
  else
    match decode_value v with
    | .error e => .error e
    | .ok s =>
      match p s with
      | some x => .ok (some x)
      | none => .error (.validation "parse" pos s)

/-! ### The generic read-scalar operation -/

/-- Loop body of `read_text_and_parse`: accumulate trimmed text/CDATA
fragments into `acc` until a closing tag, then hand the accumulated text (and
the current position) to the coercion function `f`.  A structural tag before
the close is a `TextNotFound` syntax error; end-of-stream is an
`UnexpectedEof`. -/
def read_text_and_parse_go (f : String → Nat → Except MarketXmlError T)
    (acc : String) : List Event → Nat → Except MarketXmlError (T × List Event × Nat)
  | [], pos => .error (.xml (.unexpectedEof "Text") pos)
  | e :: rest, pos =>
    match e with
    | .text s => read_text_and_parse_go f (acc ++ rustTrim s) rest (pos + 1)
    | .cdata s => read_text_and_parse_go f (acc ++ rustTrim s) rest (pos + 1)
    | .endTag _ =>
      match f acc (pos + 1) with
      | .ok t => .ok (t, rest, pos + 1)
      | .error e => .error e
    | _ => .error (.xml .textNotFound (pos + 1))

/-- `read_text_and_parse`: starts the accumulation with the empty string. -/
def read_text_and_parse (f : String → Nat → Except MarketXmlError T)
    (s : List Event) (pos : Nat) : Except MarketXmlError (T × List Event × Nat) :=
  read_text_and_parse_go f "" s pos

/-- `read_text`: read-scalar with the identity coercion. -/
def read_text (s : List Event) (pos : Nat) :
    Except MarketXmlError (String × List Event × Nat) :=
  read_text_and_parse (fun t _ => .ok t) s pos

/-- `read_value`: read-scalar with a required typed coercion; parse failure is
a `Validation` error carrying the accumulated raw text. -/
def read_value (p : String → Option α) (s : List Event) (pos : Nat) :
    Except MarketXmlError (α × List Event × Nat) :=
  read_text_and_parse (fun t pos' =>
    match p t with
    | some x => .ok x
    | none => .error (.validation "parse" pos' t)) s pos

/-- `read_opt`: read-scalar with an optional typed coercion; empty accumulated
text is `none`, non-empty text that fails to coerce is a `Validation` error. -/
def read_opt (p : String → Option α) (s : List Event) (pos : Nat) :
    Except MarketXmlError (Option α × List Event × Nat) :=
  read_text_and_parse (fun t pos' =>
    if t = "" then .ok none
    else
      match p t with
      | some x => .ok (some x)
      | none => .error (.validation "parse" pos' t)) s pos

/-! ### Attribute-driven element parsers -/

/-- `parse_yml_catalog_attrs`: captures the `date` attribute of the root tag
(last occurrence wins, mirroring repeated assignment in the Rust loop). -/
def parse_yml_catalog_attrs (attrs : List Attr) (yc : YmlCatalog) : YmlCatalog :=
  attrs.foldl (fun yc a => if a.1 = "date" then { yc with date := a.2 } else yc) yc

/-- `parse_currency`: builds a `Currency` from the tag's attributes; unknown
keys are ignored, absent keys leave the empty-string defaults. -/
def parse_currency (attrs : List Attr) : Currency :=
  attrs.foldl (fun c a =>
    if a.1 = "id" then { c with id := a.2 }
    else if a.1 = "rate" then { c with rate := a.2 }
    else if a.1 = "plus" then { c with plus := a.2 }
    else c) {}

/-- Attribute half of `parse_category`: `id` and `parentId` must coerce to
unsigned integers (`parse_value`), other keys are ignored. -/
def parse_category_attrs (pos : Nat) : List Attr → Category → Except MarketXmlError Category
  | [], c => .ok c
  | (k, v) :: rest, c =>
    if k = "id" then
      match parse_value rustParseU64 v pos with
      | .error e => .error e
      | .ok n => parse_category_attrs pos rest { c with id := n }
    else if k = "parentId" then
      match parse_value rustParseU64 v pos with
      | .error e => .error e
      | .ok n => parse_category_attrs pos rest { c with parent_id := n }
    else
      parse_category_attrs pos rest c

/-- `parse_category`: attributes first, then the tag's text content becomes
the category name (via the shared read-scalar primitive). -/
def parse_category (attrs : List Attr) (s : List Event) (pos : Nat) :
    Except MarketXmlError (Category × List Event × Nat) :=
  match parse_category_attrs pos attrs {} with
  | .error e => .error e
  | .ok cat =>
    match read_text s pos with
    | .error e => .error e
    | .ok (name, s', p') => .ok ({ cat with name := name }, s', p')

/-- Attribute loop of `parse_delivery_option`: `cost` is a required unsigned
integer, `days` raw text, `order-before` an optional unsigned integer. -/
def parse_delivery_option_attrs (pos : Nat) :
    List Attr → DeliveryOption → Except MarketXmlError DeliveryOption
  | [], o => .ok o
  | (k, v) :: rest, o =>
    if k = "cost" then
      match parse_value rustParseU64 v pos with
      | .error e => .error e
      | .ok n => parse_delivery_option_attrs pos rest { o with cost := n }
    else if k = "days" then
      match decode_value v with
      | .error e => .error e
      | .ok d => parse_delivery_option_attrs pos rest { o with days := d }
    else if k = "order-before" then
      match parse_opt rustParseU64 v pos with
      | .error e => .error e
      | .ok ob => parse_delivery_option_attrs pos rest { o with order_before := ob }
    else
      parse_delivery_option_attrs pos rest o

/-- `parse_delivery_option`: starts from the all-default option record. -/
def parse_delivery_option (attrs : List Attr) (pos : Nat) :
    Except MarketXmlError DeliveryOption :=
  parse_delivery_option_attrs pos attrs {}

/-- `parse_offer_attributes`: the open-tag attributes of an offer.  `id` and
`type` are raw strings, `bid`/`cbid` required unsigned integers, and
`available` the tri-state boolean (`"false"`/`"0"` false, `"true"`/`"1"`
true, empty unset, anything else a `Validation` error with the literal). -/
def parse_offer_attributes (pos : Nat) : List Attr → Offer → Except MarketXmlError Offer
  | [], o => .ok o
  | (k, v) :: rest, o =>
    if k = "id" then
      parse_offer_attributes pos rest { o with id := v }
    else if k = "type" then
      parse_offer_attributes pos rest { o with type := v }
    else if k = "bid" then
      match parse_value rustParseU64 v pos with
      | .error e => .error e
      | .ok n => parse_offer_attributes pos rest { o with bid := n }
    else if k = "cbid" then
      match parse_value rustParseU64 v pos with
      | .error e => .error e
      | .ok n => parse_offer_attributes pos rest { o with cbid := n }
    else if k = "available" then
      if v = "false" ∨ v = "0" then
        parse_offer_attributes pos rest { o with available := some false }
      else if v = "true" ∨ v = "1" then
        parse_offer_attributes pos rest { o with available := some true }
      else if v = "" then
        parse_offer_attributes pos rest { o with available := none }
      else
        .error (.validation "parse bool" pos v)
    else
      parse_offer_attributes pos rest o

/-- `parse_credit_template`: the first `id` attribute, if any. -/
def parse_credit_template : List Attr → Option String
  | [] => none
  | (k, v) :: rest => if k = "id" then some v else parse_credit_template rest

/-- `parse_price`: the tag text is the required decimal price; the `from`
flag becomes true exactly when some `from` attribute's literal is `"true"`. -/
def parse_price (attrs : List Attr) (s : List Event) (pos : Nat) :
    Except MarketXmlError (Price × List Event × Nat) :=
  match read_value rustParseDecimal s pos with
  | .error e => .error e
  | .ok (v, s', p') =>
    .ok ({ price := v,
           «from» := attrs.foldl
             (fun fl a => if a.1 = "from" ∧ a.2 = "true" then true else fl) false },
         s', p')

/-- `parse_param`: the tag text is the param value, then the attribute loop
fills name/unit/id/valueid. -/
def parse_param (attrs : List Attr) (s : List Event) (pos : Nat) :
    Except MarketXmlError (Param × List Event × Nat) :=
  match read_text s pos with
  | .error e => .error e
  | .ok (v, s', p') =>
    .ok (attrs.foldl (fun pr a =>
          if a.1 = "name" then { pr with name := a.2 }
          else if a.1 = "unit" then { pr with unit := a.2 }
          else if a.1 = "id" then { pr with id := a.2 }
          else if a.1 = "valueid" then { pr with value_id := a.2 }
          else pr) { value := v },
        s', p')

/-! ### Suffix lemmas for the read-scalar primitive -/

theorem read_text_and_parse_go_suffix {T : Type _}
    {f : String → Nat → Except MarketXmlError T} :
    ∀ {s : List Event} {acc : String} {pos : Nat} {t : T} {s' : List Event} {p' : Nat},
      read_text_and_parse_go f acc s pos = .ok (t, s', p') → s' <:+ s := by
  intro s
  induction s with
  | nil => intro acc pos t s' p' h; simp [read_text_and_parse_go] at h
  | cons e rest ih =>
    intro acc pos t s' p' h
    cases e <;> simp only [read_text_and_parse_go] at h
    all_goals try exact Except.noConfusion h
    case text s =>
      exact (ih h).trans (List.suffix_cons _ _)
    case cdata s =>
      exact (ih h).trans (List.suffix_cons _ _)
    case endTag n =>
      cases hf : f acc (pos + 1) with
      | ok x =>
        rw [hf] at h
        simp only [Except.ok.injEq, Prod.mk.injEq] at h
        rw [← h.2.1]
        exact List.suffix_cons _ _
      | error e => rw [hf] at h; simp at h

theorem read_text_and_parse_suffix {T : Type _}
    {f : String → Nat → Except MarketXmlError T} {s : List Event} {pos : Nat}
    {t : T} {s' : List Event} {p' : Nat}
    (h : read_text_and_parse f s pos = .ok (t, s', p')) : s' <:+ s :=
  read_text_and_parse_go_suffix h

theorem read_text_suffix {s : List Event} {pos : Nat}
    {t : String} {s' : List Event} {p' : Nat}
    (h : read_text s pos = .ok (t, s', p')) : s' <:+ s :=
  read_text_and_parse_suffix h

theorem read_value_suffix {α : Type _} {p : String → Option α} {s : List Event}
    {pos : Nat} {t : α} {s' : List Event} {p' : Nat}
    (h : read_value p s pos = .ok (t, s', p')) : s' <:+ s :=
  read_text_and_parse_suffix h

theorem read_opt_suffix {α : Type _} {p : String → Option α} {s : List Event}
    {pos : Nat} {t : Option α} {s' : List Event} {p' : Nat}
    (h : read_opt p s pos = .ok (t, s', p')) : s' <:+ s :=
  read_text_and_parse_suffix h

theorem parse_category_suffix {attrs : List Attr} {s : List Event} {pos : Nat}
    {c : Category} {s' : List Event} {p' : Nat}
    (h : parse_category attrs s pos = .ok (c, s', p')) : s' <:+ s := by
  unfold parse_category at h
  cases ha : parse_category_attrs pos attrs {} with
  | error e => rw [ha] at h; simp at h
  | ok cat =>
    rw [ha] at h
    cases hr : read_text s pos with
    | error e => rw [hr] at h; simp at h
    | ok r =>
      obtain ⟨name, s'', p''⟩ := r
      rw [hr] at h
      simp only [Except.ok.injEq, Prod.mk.injEq] at h
      rw [← h.2.1]
      exact read_text_suffix hr

theorem parse_price_suffix {attrs : List Attr} {s : List Event} {pos : Nat}
    {pr : Price} {s' : List Event} {p' : Nat}
    (h : parse_price attrs s pos = .ok (pr, s', p')) : s' <:+ s := by
  unfold parse_price at h
  cases hr : read_value rustParseDecimal s pos with
  | error e => rw [hr] at h; simp at h
  | ok r =>
    obtain ⟨v, s'', p''⟩ := r
    rw [hr] at h
    simp only [Except.ok.injEq, Prod.mk.injEq] at h
    rw [← h.2.1]
    exact read_value_suffix hr

theorem parse_param_suffix {attrs : List Attr} {s : List Event} {pos : Nat}
    {pr : Param} {s' : List Event} {p' : Nat}
    (h : parse_param attrs s pos = .ok (pr, s', p')) : s' <:+ s := by
  unfold parse_param at h
  cases hr : read_text s pos with
  | error e => rw [hr] at h; simp at h
  | ok r =>
    obtain ⟨v, s'', p''⟩ := r
    rw [hr] at h
    simp only [Except.ok.injEq, Prod.mk.injEq] at h
    rw [← h.2.1]
    exact read_text_suffix hr

/-! ### Nested-structure sub-loops -/

/-- Event loop of `parse_condition` (run after the `type` attribute fold):
a nested `reason` open tag reads its text, other open tags are skipped, any
closing tag ends the loop, text or self-closing content is a `TextNotFound`
syntax error, end-of-stream an `UnexpectedEof`. -/
def parse_condition_go (c : Condition) : List Event → Nat → Except MarketXmlError (Condition × List Event × Nat)
  | [], pos => .error (.xml (.unexpectedEof "Condition") pos)
  | .start n _ :: rest, pos =>
    if n = "reason" then
      match h : read_text rest (pos + 1) with
      | .error err => .error err
      | .ok (txt, s', p') => parse_condition_go { c with reason := txt } s' p'
    else
      parse_condition_go c rest (pos + 1)
  | .endTag _ :: rest, pos => .ok (c, rest, pos + 1)
  | _ :: _, pos => .error (.xml .textNotFound (pos + 1))
termination_by s _ => s.length
decreasing_by
  all_goals simp only [List.length_cons]
  · have := List.IsSuffix.length_le (read_text_suffix h)
    omega
  · omega

/-- `parse_condition`: the `type` attribute fold, then the event loop. -/
def parse_condition (attrs : List Attr) (s : List Event) (pos : Nat) :
    Except MarketXmlError (Condition × List Event × Nat) :=
  parse_condition_go
    (attrs.foldl (fun c a => if a.1 = "type" then { c with type := a.2 } else c) {})
    s pos

/-- `parse_delivery_options` (also used for pickup options): one element per
`option` open/self-closing tag; the loop breaks at the first closing tag of
any name, errors with `TextNotFound` on any text/CDATA/other content, and
with `UnexpectedEof` at end-of-stream. -/
def parse_delivery_options : List Event → Nat → Except MarketXmlError (List DeliveryOption × List Event × Nat)
  | [], pos => .error (.xml (.unexpectedEof "Delivery options") pos)
  | .start n attrs :: rest, pos
  | .empty n attrs :: rest, pos =>
    if n = "option" then
      match parse_delivery_option attrs (pos + 1) with
      | .error err => .error err
      | .ok opt =>
        match parse_delivery_options rest (pos + 1) with
        | .error err => .error err
        | .ok (opts, s', p') => .ok (opt :: opts, s', p')
    else
      parse_delivery_options rest (pos + 1)
  | .endTag _ :: rest, pos => .ok ([], rest, pos + 1)
  | _ :: _, pos => .error (.xml .textNotFound (pos + 1))

/-- `parse_currencies`: one element per `currency` open/self-closing tag,
ignoring every other event, until the `currencies` closing tag;
end-of-stream is an `UnexpectedEof`. -/
def parse_currencies : List Event → Nat → Except MarketXmlError (List Currency × List Event × Nat)
  | [], pos => .error (.xml (.unexpectedEof "currencies") pos)
  | .start n attrs :: rest, pos
  | .empty n attrs :: rest, pos =>
    if n = "currency" then
      match parse_currencies rest (pos + 1) with
      | .error err => .error err
      | .ok (cs, s', p') => .ok (parse_currency attrs :: cs, s', p')
    else
      parse_currencies rest (pos + 1)
  | .endTag n :: rest, pos =>
    if n = "currencies" then .ok ([], rest, pos + 1)
    else parse_currencies rest (pos + 1)
  | _ :: rest, pos => parse_currencies rest (pos + 1)

/-- `parse_categories`: one element per `category` open/self-closing tag
(attributes plus nested text), ignoring every other event, until the
`categories` closing tag; end-of-stream is an `UnexpectedEof`. -/
def parse_categories : List Event → Nat → Except MarketXmlError (List Category × List Event × Nat)
  | [], pos => .error (.xml (.unexpectedEof "categories") pos)
  | .start n attrs :: rest, pos
  | .empty n attrs :: rest, pos =>
    if n = "category" then
      match h : parse_category attrs rest (pos + 1) with
      | .error err => .error err
      | .ok (cat, s', p') =>
        match parse_categories s' p' with
        | .error err => .error err
        | .ok (cats, s'', p'') => .ok (cat :: cats, s'', p'')
    else
      parse_categories rest (pos + 1)
  | .endTag n :: rest, pos =>
    if n = "categories" then .ok ([], rest, pos + 1)
    else parse_categories rest (pos + 1)
  | _ :: rest, pos => parse_categories rest (pos + 1)
termination_by s _ => s.length
decreasing_by
  all_goals simp only [List.length_cons]
  all_goals try omega
  all_goals have := List.IsSuffix.length_le (parse_category_suffix h)
  all_goals omega

theorem parse_condition_go_suffix {c : Condition} {s : List Event} {pos : Nat}
    {c' : Condition} {s' : List Event} {p' : Nat}
    (h : parse_condition_go c s pos = .ok (c', s', p')) : s' <:+ s := by
  induction c, s, pos using parse_condition_go.induct generalizing c' s' p' with
  | case1 c pos => simp [parse_condition_go] at h
  | case2 c attrs rest pos err hr =>
    rw [parse_condition_go, if_pos rfl] at h
    split at h
    · exact Except.noConfusion h
    · rename_i txt s1 p1 heq
      rw [hr] at heq
      exact Except.noConfusion heq
  | case3 c attrs rest pos txt s1 p1 hr ih =>
    rw [parse_condition_go, if_pos rfl] at h
    split at h
    · rename_i err heq
      rw [hr] at heq
      exact Except.noConfusion heq
    · rename_i txt2 s2 p2 heq
      rw [hr] at heq
      simp only [Except.ok.injEq, Prod.mk.injEq] at heq
      obtain ⟨h1, h2, h3⟩ := heq
      subst h1; subst h2; subst h3
      exact ((ih h).trans (read_text_suffix hr)).trans (List.suffix_cons _ _)
  | case4 c n attrs rest pos hn ih =>
    rw [parse_condition_go, if_neg hn] at h
    exact (ih h).trans (List.suffix_cons _ _)
  | case5 c name rest pos =>
    rw [parse_condition_go] at h
    simp only [Except.ok.injEq, Prod.mk.injEq] at h
    rw [← h.2.1]
    exact List.suffix_cons _ _
  | case6 c head tail pos h1 h2 =>
    cases head with
    | start n a => exact absurd rfl (h1 n a)
    | endTag n => exact absurd rfl (h2 n)
    | empty n a =>
      rw [parse_condition_go.eq_def] at h
      simp at h
    | text str =>
      rw [parse_condition_go.eq_def] at h
      simp at h
    | cdata str =>
      rw [parse_condition_go.eq_def] at h
      simp at h
    | comment str =>
      rw [parse_condition_go.eq_def] at h
      simp at h

theorem parse_currencies_suffix : ∀ {s : List Event} {pos : Nat} {cs : List Currency}
    {s' : List Event} {p' : Nat},
    parse_currencies s pos = .ok (cs, s', p') → s' <:+ s := by
  intro s
  induction s with
  | nil => intro pos cs s' p' h; simp [parse_currencies] at h
  | cons e rest ih =>
    intro pos cs s' p' h
    rw [parse_currencies.eq_def] at h
    cases e <;> simp only at h
    case start n attrs =>
      split at h
      · split at h
        · exact Except.noConfusion h
        · rename_i r heq
          simp only [Except.ok.injEq, Prod.mk.injEq] at h
          rw [← h.2.1]
          exact (ih heq).trans (List.suffix_cons _ _)
      · exact (ih h).trans (List.suffix_cons _ _)
    case empty n attrs =>
      split at h
      · split at h
        · exact Except.noConfusion h
        · rename_i r heq
          simp only [Except.ok.injEq, Prod.mk.injEq] at h
          rw [← h.2.1]
          exact (ih heq).trans (List.suffix_cons _ _)
      · exact (ih h).trans (List.suffix_cons _ _)
    case endTag n =>
      split at h
      · simp only [Except.ok.injEq, Prod.mk.injEq] at h
        rw [← h.2.1]
        exact List.suffix_cons _ _
      · exact (ih h).trans (List.suffix_cons _ _)
    case text str => exact (ih h).trans (List.suffix_cons _ _)
    case cdata str => exact (ih h).trans (List.suffix_cons _ _)
    case comment str => exact (ih h).trans (List.suffix_cons _ _)

theorem parse_delivery_options_suffix : ∀ {s : List Event} {pos : Nat}
    {opts : List DeliveryOption} {s' : List Event} {p' : Nat},
    parse_delivery_options s pos = .ok (opts, s', p') → s' <:+ s := by
  intro s
  induction s with
  | nil => intro pos opts s' p' h; simp [parse_delivery_options] at h
  | cons e rest ih =>
    intro pos opts s' p' h
    rw [parse_delivery_options.eq_def] at h
    cases e <;> simp only at h
    case start n attrs =>
      split at h
      · split at h
        · exact Except.noConfusion h
        · split at h
          · exact Except.noConfusion h
          · rename_i opt hopt r heq
            simp only [Except.ok.injEq, Prod.mk.injEq] at h
            rw [← h.2.1]
            exact (ih heq).trans (List.suffix_cons _ _)
      · exact (ih h).trans (List.suffix_cons _ _)
    case empty n attrs =>
      split at h
      · split at h
        · exact Except.noConfusion h
        · split at h
          · exact Except.noConfusion h
          · rename_i opt hopt r heq
            simp only [Except.ok.injEq, Prod.mk.injEq] at h
            rw [← h.2.1]
            exact (ih heq).trans (List.suffix_cons _ _)
      · exact (ih h).trans (List.suffix_cons _ _)
    case endTag n =>
      simp only [Except.ok.injEq, Prod.mk.injEq] at h
      rw [← h.2.1]
      exact List.suffix_cons _ _
    case text str => exact Except.noConfusion h
    case cdata str => exact Except.noConfusion h
    case comment str => exact Except.noConfusion h

theorem parse_categories_suffix_aux : ∀ (n : Nat) (s : List Event), s.length ≤ n →
    ∀ {pos : Nat} {cs : List Category} {s' : List Event} {p' : Nat},
    parse_categories s pos = .ok (cs, s', p') → s' <:+ s := by
  intro n
  induction n with
  | zero =>
    intro s hs pos cs s' p' h
    rw [List.length_eq_zero.mp (Nat.le_zero.mp hs)] at h
    simp [parse_categories] at h
  | succ n ih =>
    intro s hs pos cs s' p' h
    match s with
    | [] => simp [parse_categories] at h
    | e :: rest =>
      have hr : rest.length ≤ n := by
        simp only [List.length_cons] at hs; omega
      rw [parse_categories.eq_def] at h
      cases e <;> simp only at h
      case start nm attrs =>
        split at h
        · split at h
          · exact Except.noConfusion h
          · rename_i cat s₁ p₁ hcat
            split at h
            · exact Except.noConfusion h
            · rename_i cats s₂ p₂ hrec
              simp only [Except.ok.injEq, Prod.mk.injEq] at h
              rw [← h.2.1]
              have hsub := parse_category_suffix hcat
              have hlen : s₁.length ≤ n :=
                le_trans (List.IsSuffix.length_le hsub) hr
              exact ((ih s₁ hlen hrec).trans hsub).trans (List.suffix_cons _ _)
        · exact (ih rest hr h).trans (List.suffix_cons _ _)
      case empty nm attrs =>
        split at h
        · split at h
          · exact Except.noConfusion h
          · rename_i cat s₁ p₁ hcat
            split at h
            · exact Except.noConfusion h
            · rename_i cats s₂ p₂ hrec
              simp only [Except.ok.injEq, Prod.mk.injEq] at h
              rw [← h.2.1]
              have hsub := parse_category_suffix hcat
              have hlen : s₁.length ≤ n :=
                le_trans (List.IsSuffix.length_le hsub) hr
              exact ((ih s₁ hlen hrec).trans hsub).trans (List.suffix_cons _ _)
        · exact (ih rest hr h).trans (List.suffix_cons _ _)
      case endTag nm =>
        split at h
        · simp only [Except.ok.injEq, Prod.mk.injEq] at h
          rw [← h.2.1]
          exact List.suffix_cons _ _
        · exact (ih rest hr h).trans (List.suffix_cons _ _)
      case text str => exact (ih rest hr h).trans (List.suffix_cons _ _)
      case cdata str => exact (ih rest hr h).trans (List.suffix_cons _ _)
      case comment str => exact (ih rest hr h).trans (List.suffix_cons _ _)

theorem parse_categories_suffix {s : List Event} {pos : Nat} {cs : List Category}
    {s' : List Event} {p' : Nat}
    (h : parse_categories s pos = .ok (cs, s', p')) : s' <:+ s :=
  parse_categories_suffix_aux s.length s le_rfl h

theorem parse_condition_suffix {attrs : List Attr} {s : List Event} {pos : Nat}
    {c : Condition} {s' : List Event} {p' : Nat}
    (h : parse_condition attrs s pos = .ok (c, s', p')) : s' <:+ s :=
  parse_condition_go_suffix h

/-! ### Offer parsing -/

/-- `parse_offer_field`: dispatch on the tag name inside an offer, each arm
reading a typed scalar or a nested structure into the in-progress `Offer`;
unknown tags are skipped without consuming further events. -/
def parse_offer_field (n : String) (attrs : List Attr) (o : Offer)
    (s : List Event) (pos : Nat) : Except MarketXmlError (Offer × List Event × Nat) :=
  if n = "name" then
    match read_text s pos with
    | .error e => .error e
    | .ok (t, s', p') => .ok ({ o with name := t }, s', p')
  else if n = "vendor" then
    match read_text s pos with
    | .error e => .error e
    | .ok (t, s', p') => .ok ({ o with vendor := t }, s', p')
  else if n = "vendorCode" then
    match read_text s pos with
    | .error e => .error e
    | .ok (t, s', p') => .ok ({ o with vendor_code := t }, s', p')
  else if n = "url" then
    match read_text s pos with
    | .error e => .error e
    | .ok (t, s', p') => .ok ({ o with url := t }, s', p')
  else if n = "picture" then
    match read_text s pos with
    | .error e => .error e
    | .ok (t, s', p') => .ok ({ o with picture := t }, s', p')
  else if n = "price" then
    match parse_price attrs s pos with
    | .error e => .error e
    | .ok (pr, s', p') => .ok ({ o with price := some pr }, s', p')
  else if n = "oldprice" then
    match parse_price attrs s pos with
    | .error e => .error e
    | .ok (pr, s', p') => .ok ({ o with old_price := some pr }, s', p')
  else if n = "currencyId" then
    match read_text s pos with
    | .error e => .error e
    | .ok (t, s', p') => .ok ({ o with currency_id := t }, s', p')
  else if n = "categoryId" then
    match read_value rustParseU64 s pos with
    | .error e => .error e
    | .ok (v, s', p') => .ok ({ o with category_id := v }, s', p')
  else if n = "description" then
    match read_text s pos with
    | .error e => .error e
    | .ok (t, s', p') => .ok ({ o with description := t }, s', p')
  else if n = "sales_notes" then
    match read_text s pos with
    | .error e => .error e
    | .ok (t, s', p') => .ok ({ o with sales_notes := t }, s', p')
  else if n = "delivery" then
    match read_opt rustParseBool s pos with
    | .error e => .error e
    | .ok (v, s', p') => .ok ({ o with delivery := v }, s', p')
  else if n = "pickup" then
    match read_opt rustParseBool s pos with
    | .error e => .error e
    | .ok (v, s', p') => .ok ({ o with pickup := v }, s', p')
  else if n = "store" then
    match read_opt rustParseBool s pos with
    | .error e => .error e
    | .ok (v, s', p') => .ok ({ o with store := v }, s', p')
  else if n = "downloadable" then
    match read_value rustParseBool s pos with
    | .error e => .error e
    | .ok (v, s', p') => .ok ({ o with downloadable := v }, s', p')
  else if n = "enable_auto_discounts" then
    match read_value rustParseBool s pos with
    | .error e => .error e
    | .ok (v, s', p') => .ok ({ o with enable_auto_discounts := v }, s', p')
  else if n = "min_quantity" then
    match read_opt rustParseU64 s pos with
    | .error e => .error e
    | .ok (v, s', p') => .ok ({ o with min_quantity := v }, s', p')
  else if n = "manufacturer_warranty" then
    match read_value rustParseBool s pos with
    | .error e => .error e
    | .ok (v, s', p') => .ok ({ o with manufacturer_warranty := v }, s', p')
  else if n = "barcode" then
    match read_text s pos with
    | .error e => .error e
    | .ok (t, s', p') => .ok ({ o with barcodes := o.barcodes ++ [t] }, s', p')
  else if n = "param" then
    match parse_param attrs s pos with
    | .error e => .error e
    | .ok (pr, s', p') => .ok ({ o with params := o.params ++ [pr] }, s', p')
  else if n = "condition" then
    match parse_condition attrs s pos with
    | .error e => .error e
    | .ok (c, s', p') => .ok ({ o with condition := some c }, s', p')
  else if n = "credit-template" then
    .ok ({ o with credit_template_id := (parse_credit_template attrs).getD "" }, s, pos)
  else if n = "country_of_origin" then
    match read_text s pos with
    | .error e => .error e
    | .ok (t, s', p') => .ok ({ o with country_of_origin := t }, s', p')
  else if n = "weight" then
    match read_value rustParseDecimal s pos with
    | .error e => .error e
    | .ok (v, s', p') => .ok ({ o with weight := v }, s', p')
  else if n = "dimensions" then
    match read_text s pos with
    | .error e => .error e
    | .ok (t, s', p') => .ok ({ o with dimensions := t }, s', p')
  else if n = "delivery-options" then
    match parse_delivery_options s pos with
    | .error e => .error e
    | .ok (opts, s', p') => .ok ({ o with delivery_options := opts }, s', p')
  else if n = "pickup-options" then
    match parse_delivery_options s pos with
    | .error e => .error e
    | .ok (opts, s', p') => .ok ({ o with pickup_options := opts }, s', p')
  else
    .ok (o, s, pos)

theorem parse_offer_field_suffix {n : String} {attrs : List Attr} {o : Offer}
    {s : List Event} {pos : Nat} {o' : Offer} {s' : List Event} {p' : Nat}
    (h : parse_offer_field n attrs o s pos = .ok (o', s', p')) : s' <:+ s := by
  unfold parse_offer_field at h
  by_cases c1 : n = "name"
  · rw [if_pos c1] at h
    split at h
    · exact Except.noConfusion h
    · rename_i x s1 p1 heq
      simp only [Except.ok.injEq, Prod.mk.injEq] at h
      rw [← h.2.1]
      exact read_text_suffix heq
  · rw [if_neg c1] at h
    by_cases c2 : n = "vendor"
    · rw [if_pos c2] at h
      split at h
      · exact Except.noConfusion h
      · rename_i x s1 p1 heq
        simp only [Except.ok.injEq, Prod.mk.injEq] at h
        rw [← h.2.1]
        exact read_text_suffix heq
    · rw [if_neg c2] at h
      by_cases c3 : n = "vendorCode"
      · rw [if_pos c3] at h
        split at h
        · exact Except.noConfusion h
        · rename_i x s1 p1 heq
          simp only [Except.ok.injEq, Prod.mk.injEq] at h
          rw [← h.2.1]
          exact read_text_suffix heq
      · rw [if_neg c3] at h
        by_cases c4 : n = "url"
        · rw [if_pos c4] at h
          split at h
          · exact Except.noConfusion h
          · rename_i x s1 p1 heq
            simp only [Except.ok.injEq, Prod.mk.injEq] at h
            rw [← h.2.1]
            exact read_text_suffix heq
        · rw [if_neg c4] at h
          by_cases c5 : n = "picture"
          · rw [if_pos c5] at h
            split at h
            · exact Except.noConfusion h
            · rename_i x s1 p1 heq
              simp only [Except.ok.injEq, Prod.mk.injEq] at h
              rw [← h.2.1]
              exact read_text_suffix heq
          · rw [if_neg c5] at h
            by_cases c6 : n = "price"
            · rw [if_pos c6] at h
              split at h
              · exact Except.noConfusion h
              · rename_i x s1 p1 heq
                simp only [Except.ok.injEq, Prod.mk.injEq] at h
                rw [← h.2.1]
                exact parse_price_suffix heq
            · rw [if_neg c6] at h
              by_cases c7 : n = "oldprice"
              · rw [if_pos c7] at h
                split at h
                · exact Except.noConfusion h
                · rename_i x s1 p1 heq
                  simp only [Except.ok.injEq, Prod.mk.injEq] at h
                  rw [← h.2.1]
                  exact parse_price_suffix heq
              · rw [if_neg c7] at h
                by_cases c8 : n = "currencyId"
                · rw [if_pos c8] at h
                  split at h
                  · exact Except.noConfusion h
                  · rename_i x s1 p1 heq
                    simp only [Except.ok.injEq, Prod.mk.injEq] at h
                    rw [← h.2.1]
                    exact read_text_suffix heq
                · rw [if_neg c8] at h
                  by_cases c9 : n = "categoryId"
                  · rw [if_pos c9] at h
                    split at h
                    · exact Except.noConfusion h
                    · rename_i x s1 p1 heq
                      simp only [Except.ok.injEq, Prod.mk.injEq] at h
                      rw [← h.2.1]
                      exact read_value_suffix heq
                  · rw [if_neg c9] at h
                    by_cases c10 : n = "description"
                    · rw [if_pos c10] at h
                      split at h
                      · exact Except.noConfusion h
                      · rename_i x s1 p1 heq
                        simp only [Except.ok.injEq, Prod.mk.injEq] at h
                        rw [← h.2.1]
                        exact read_text_suffix heq
                    · rw [if_neg c10] at h
                      by_cases c11 : n = "sales_notes"
                      · rw [if_pos c11] at h
                        split at h
                        · exact Except.noConfusion h
                        · rename_i x s1 p1 heq
                          simp only [Except.ok.injEq, Prod.mk.injEq] at h
                          rw [← h.2.1]
                          exact read_text_suffix heq
                      · rw [if_neg c11] at h
                        by_cases c12 : n = "delivery"
                        · rw [if_pos c12] at h
                          split at h
                          · exact Except.noConfusion h
                          · rename_i x s1 p1 heq
                            simp only [Except.ok.injEq, Prod.mk.injEq] at h
                            rw [← h.2.1]
                            exact read_opt_suffix heq
                        · rw [if_neg c12] at h
                          by_cases c13 : n = "pickup"
                          · rw [if_pos c13] at h
                            split at h
                            · exact Except.noConfusion h
                            · rename_i x s1 p1 heq
                              simp only [Except.ok.injEq, Prod.mk.injEq] at h
                              rw [← h.2.1]
                              exact read_opt_suffix heq
                          · rw [if_neg c13] at h
                            by_cases c14 : n = "store"
                            · rw [if_pos c14] at h
                              split at h
                              · exact Except.noConfusion h
                              · rename_i x s1 p1 heq
                                simp only [Except.ok.injEq, Prod.mk.injEq] at h
                                rw [← h.2.1]
                                exact read_opt_suffix heq
                            · rw [if_neg c14] at h
                              by_cases c15 : n = "downloadable"
                              · rw [if_pos c15] at h
                                split at h
                                · exact Except.noConfusion h
                                · rename_i x s1 p1 heq
                                  simp only [Except.ok.injEq, Prod.mk.injEq] at h
                                  rw [← h.2.1]
                                  exact read_value_suffix heq
                              · rw [if_neg c15] at h
                                by_cases c16 : n = "enable_auto_discounts"
                                · rw [if_pos c16] at h
                                  split at h
                                  · exact Except.noConfusion h
                                  · rename_i x s1 p1 heq
                                    simp only [Except.ok.injEq, Prod.mk.injEq] at h
                                    rw [← h.2.1]
                                    exact read_value_suffix heq
                                · rw [if_neg c16] at h
                                  by_cases c17 : n = "min_quantity"
                                  · rw [if_pos c17] at h
                                    split at h
                                    · exact Except.noConfusion h
                                    · rename_i x s1 p1 heq
                                      simp only [Except.ok.injEq, Prod.mk.injEq] at h
                                      rw [← h.2.1]
                                      exact read_opt_suffix heq
                                  · rw [if_neg c17] at h
                                    by_cases c18 : n = "manufacturer_warranty"
                                    · rw [if_pos c18] at h
                                      split at h
                                      · exact Except.noConfusion h
                                      · rename_i x s1 p1 heq
                                        simp only [Except.ok.injEq, Prod.mk.injEq] at h
                                        rw [← h.2.1]
                                        exact read_value_suffix heq
                                    · rw [if_neg c18] at h
                                      by_cases c19 : n = "barcode"
                                      · rw [if_pos c19] at h
                                        split at h
                                        · exact Except.noConfusion h
                                        · rename_i x s1 p1 heq
                                          simp only [Except.ok.injEq, Prod.mk.injEq] at h
                                          rw [← h.2.1]
                                          exact read_text_suffix heq
                                      · rw [if_neg c19] at h
                                        by_cases c20 : n = "param"
                                        · rw [if_pos c20] at h
                                          split at h
                                          · exact Except.noConfusion h
                                          · rename_i x s1 p1 heq
                                            simp only [Except.ok.injEq, Prod.mk.injEq] at h
                                            rw [← h.2.1]
                                            exact parse_param_suffix heq
                                        · rw [if_neg c20] at h
                                          by_cases c21 : n = "condition"
                                          · rw [if_pos c21] at h
                                            split at h
                                            · exact Except.noConfusion h
                                            · rename_i x s1 p1 heq
                                              simp only [Except.ok.injEq, Prod.mk.injEq] at h
                                              rw [← h.2.1]
                                              exact parse_condition_suffix heq
                                          · rw [if_neg c21] at h
                                            by_cases c22 : n = "credit-template"
                                            · rw [if_pos c22] at h
                                              simp only [Except.ok.injEq, Prod.mk.injEq] at h
                                              rw [← h.2.1]
                                            · rw [if_neg c22] at h
                                              by_cases c23 : n = "country_of_origin"
                                              · rw [if_pos c23] at h
                                                split at h
                                                · exact Except.noConfusion h
                                                · rename_i x s1 p1 heq
                                                  simp only [Except.ok.injEq, Prod.mk.injEq] at h
                                                  rw [← h.2.1]
                                                  exact read_text_suffix heq
                                              · rw [if_neg c23] at h
                                                by_cases c24 : n = "weight"
                                                · rw [if_pos c24] at h
                                                  split at h
                                                  · exact Except.noConfusion h
                                                  · rename_i x s1 p1 heq
                                                    simp only [Except.ok.injEq, Prod.mk.injEq] at h
                                                    rw [← h.2.1]
                                                    exact read_value_suffix heq
                                                · rw [if_neg c24] at h
                                                  by_cases c25 : n = "dimensions"
                                                  · rw [if_pos c25] at h
                                                    split at h
                                                    · exact Except.noConfusion h
                                                    · rename_i x s1 p1 heq
                                                      simp only [Except.ok.injEq, Prod.mk.injEq] at h
                                                      rw [← h.2.1]
                                                      exact read_text_suffix heq
                                                  · rw [if_neg c25] at h
                                                    by_cases c26 : n = "delivery-options"
                                                    · rw [if_pos c26] at h
                                                      split at h
                                                      · exact Except.noConfusion h
                                                      · rename_i x s1 p1 heq
                                                        simp only [Except.ok.injEq, Prod.mk.injEq] at h
                                                        rw [← h.2.1]
                                                        exact parse_delivery_options_suffix heq
                                                    · rw [if_neg c26] at h
                                                      by_cases c27 : n = "pickup-options"
                                                      · rw [if_pos c27] at h
                                                        split at h
                                                        · exact Except.noConfusion h
                                                        · rename_i x s1 p1 heq
                                                          simp only [Except.ok.injEq, Prod.mk.injEq] at h
                                                          rw [← h.2.1]
                                                          exact parse_delivery_options_suffix heq
                                                      · rw [if_neg c27] at h
                                                        simp only [Except.ok.injEq, Prod.mk.injEq] at h
                                                        rw [← h.2.1]

/-- `parse_offer_fields`: the offer event loop, dispatching every open or
self-closing tag to `parse_offer_field` until the `offer` closing tag;
other closing tags and character content are skipped, end-of-stream is an
`UnexpectedEof`. -/
def parse_offer_fields (o : Offer) : List Event → Nat → Except MarketXmlError (Offer × List Event × Nat)
  | [], pos => .error (.xml (.unexpectedEof "Offer") pos)
  | .start n attrs :: rest, pos
  | .empty n attrs :: rest, pos =>
    match h : parse_offer_field n attrs o rest (pos + 1) with
    | .error err => .error err
    | .ok (o', s', p') => parse_offer_fields o' s' p'
  | .endTag n :: rest, pos =>
    if n = "offer" then .ok (o, rest, pos + 1)
    else parse_offer_fields o rest (pos + 1)
  | _ :: rest, pos => parse_offer_fields o rest (pos + 1)
termination_by s _ => s.length
decreasing_by
  all_goals simp only [List.length_cons]
  all_goals try omega
  all_goals have := List.IsSuffix.length_le (parse_offer_field_suffix h)
  all_goals omega

/-- `parse_offer`: the open-tag attributes, then the field loop on a default
offer record. -/
def parse_offer (attrs : List Attr) (s : List Event) (pos : Nat) :
    Except MarketXmlError (Offer × List Event × Nat) :=
  match parse_offer_attributes pos attrs {} with
  | .error e => .error e
  | .ok o => parse_offer_fields o s pos

/-- Whenever the offer field loop returns, the events it consumed form a
prefix whose final event is the `offer` closing tag: the offer is handed back
exactly at the moment its closing tag is observed. -/
theorem parse_offer_fields_last_aux : ∀ (n : Nat) (s : List Event), s.length ≤ n →
    ∀ {o : Offer} {pos : Nat} {o' : Offer} {s' : List Event} {p' : Nat},
    parse_offer_fields o s pos = .ok (o', s', p') →
    ∃ c, s = c ++ s' ∧ c.getLast? = some (.endTag "offer") := by
  intro n
  induction n with
  | zero =>
    intro s hs o pos o' s' p' h
    rw [List.length_eq_zero.mp (Nat.le_zero.mp hs)] at h
    simp [parse_offer_fields] at h
  | succ n ih =>
    intro s hs o pos o' s' p' h
    match s with
    | [] => simp [parse_offer_fields] at h
    | e :: rest =>
      have hr : rest.length ≤ n := by
        simp only [List.length_cons] at hs; omega
      have tailCase : ∀ {o₁ : Offer},
          parse_offer_fields o₁ rest (pos + 1) = .ok (o', s', p') →
          ∃ c, e :: rest = c ++ s' ∧ c.getLast? = some (.endTag "offer") := by
        intro o₁ htl
        obtain ⟨c, hc, hlast⟩ := ih rest hr htl
        have hcne : c ≠ [] := by
          intro hn; rw [hn] at hlast; simp at hlast
        refine ⟨e :: c, by rw [hc, List.cons_append], ?_⟩
        rw [show e :: c = [e] ++ c from rfl, List.getLast?_append_of_ne_nil _ hcne]
        exact hlast
      rw [parse_offer_fields.eq_def] at h
      cases e <;> simp only at h
      case start nm attrs =>
        split at h
        · exact Except.noConfusion h
        · rename_i o₁ s₁ p₁ heq
          obtain ⟨d, hd⟩ := parse_offer_field_suffix heq
          have hlen : s₁.length ≤ n := by
            have := List.IsSuffix.length_le ⟨d, hd⟩
            omega
          obtain ⟨c₂, hc₂, hlast⟩ := ih s₁ hlen h
          have hcne : c₂ ≠ [] := by
            intro hn; rw [hn] at hlast; simp at hlast
          refine ⟨.start nm attrs :: (d ++ c₂), ?_, ?_⟩
          · rw [List.cons_append, List.append_assoc, ← hc₂, hd]
          · rw [show Event.start nm attrs :: (d ++ c₂) = (Event.start nm attrs :: d) ++ c₂
              from by rw [List.cons_append], List.getLast?_append_of_ne_nil _ hcne]
            exact hlast
      case empty nm attrs =>
        split at h
        · exact Except.noConfusion h
        · rename_i o₁ s₁ p₁ heq
          obtain ⟨d, hd⟩ := parse_offer_field_suffix heq
          have hlen : s₁.length ≤ n := by
            have := List.IsSuffix.length_le ⟨d, hd⟩
            omega
          obtain ⟨c₂, hc₂, hlast⟩ := ih s₁ hlen h
          have hcne : c₂ ≠ [] := by
            intro hn; rw [hn] at hlast; simp at hlast
          refine ⟨.empty nm attrs :: (d ++ c₂), ?_, ?_⟩
          · rw [List.cons_append, List.append_assoc, ← hc₂, hd]
          · rw [show Event.empty nm attrs :: (d ++ c₂) = (Event.empty nm attrs :: d) ++ c₂
              from by rw [List.cons_append], List.getLast?_append_of_ne_nil _ hcne]
            exact hlast
      case endTag nm =>
        split at h
        · rename_i hnm
          simp only [Except.ok.injEq, Prod.mk.injEq] at h
          subst hnm
          refine ⟨[.endTag "offer"], ?_, rfl⟩
          rw [← h.2.1]
          rfl
        · exact tailCase h
      case text str => exact tailCase h
      case cdata str => exact tailCase h
      case comment str => exact tailCase h

theorem parse_offer_fields_last {o : Offer} {s : List Event} {pos : Nat}
    {o' : Offer} {s' : List Event} {p' : Nat}
    (h : parse_offer_fields o s pos = .ok (o', s', p')) :
    ∃ c, s = c ++ s' ∧ c.getLast? = some (.endTag "offer") :=
  parse_offer_fields_last_aux s.length s le_rfl h

theorem parse_offer_fields_suffix {o : Offer} {s : List Event} {pos : Nat}
    {o' : Offer} {s' : List Event} {p' : Nat}
    (h : parse_offer_fields o s pos = .ok (o', s', p')) : s' <:+ s := by
  obtain ⟨c, hc, _⟩ := parse_offer_fields_last h
  exact ⟨c, hc.symm⟩

theorem parse_offer_last {attrs : List Attr} {s : List Event} {pos : Nat}
    {o : Offer} {s' : List Event} {p' : Nat}
    (h : parse_offer attrs s pos = .ok (o, s', p')) :
    ∃ c, s = c ++ s' ∧ c.getLast? = some (.endTag "offer") := by
  unfold parse_offer at h
  cases ha : parse_offer_attributes pos attrs {} with
  | error e => rw [ha] at h; exact Except.noConfusion h
  | ok o₀ =>
    rw [ha] at h
    exact parse_offer_fields_last h

/-- `parse_offers`: skip events until an `offer` open tag (parsed into an
offer and returned) or the `offers` closing tag (ending the offers scope);
end-of-stream is an `UnexpectedEof`.  Self-closing `offer` tags are not
matched by the Rust code and fall through to the skip arm. -/
def parse_offers : List Event → Nat → Except MarketXmlError (Option Offer × List Event × Nat)
  | [], pos => .error (.xml (.unexpectedEof "offers") pos)
  | .start n attrs :: rest, pos =>
    if n = "offer" then
      match parse_offer attrs rest (pos + 1) with
      | .error err => .error err
      | .ok (o, s', p') => .ok (some o, s', p')
    else
      parse_offers rest (pos + 1)
  | .endTag n :: rest, pos =>
    if n = "offers" then .ok (none, rest, pos + 1)
    else parse_offers rest (pos + 1)
  | _ :: rest, pos => parse_offers rest (pos + 1)

/-- When `parse_offers` returns an offer, the consumed events end with the
`offer` closing tag. -/
theorem parse_offers_some_last : ∀ {s : List Event} {pos : Nat} {o : Offer}
    {s' : List Event} {p' : Nat},
    parse_offers s pos = .ok (some o, s', p') →
    ∃ c, s = c ++ s' ∧ c.getLast? = some (.endTag "offer") := by
  intro s
  induction s with
  | nil => intro pos o s' p' h; simp [parse_offers] at h
  | cons e rest ih =>
    intro pos o s' p' h
    have tailCase : parse_offers rest (pos + 1) = .ok (some o, s', p') →
        ∃ c, e :: rest = c ++ s' ∧ c.getLast? = some (.endTag "offer") := by
      intro htl
      obtain ⟨c, hc, hlast⟩ := ih htl
      have hcne : c ≠ [] := by
        intro hn; rw [hn] at hlast; simp at hlast
      refine ⟨e :: c, by rw [hc, List.cons_append], ?_⟩
      rw [show e :: c = [e] ++ c from rfl, List.getLast?_append_of_ne_nil _ hcne]
      exact hlast
    rw [parse_offers.eq_def] at h
    cases e <;> simp only at h
    case start n attrs =>
      split at h
      · rename_i hn
        split at h
        · exact Except.noConfusion h
        · rename_i o₁ s₁ p₁ heq
          simp only [Except.ok.injEq, Prod.mk.injEq, Option.some.injEq] at h
          obtain ⟨ho, hs, hp⟩ := h
          subst ho; subst hs; subst hn
          obtain ⟨c, hc, hlast⟩ := parse_offer_last heq
          have hcne : c ≠ [] := by
            intro hn; rw [hn] at hlast; simp at hlast
          refine ⟨.start "offer" attrs :: c, by rw [hc, List.cons_append], ?_⟩
          rw [show Event.start "offer" attrs :: c = [Event.start "offer" attrs] ++ c
            from rfl, List.getLast?_append_of_ne_nil _ hcne]
          exact hlast
      · exact tailCase h
    case empty n attrs => exact tailCase h
    case endTag n =>
      split at h
      · simp at h
      · exact tailCase h
    case text str => exact tailCase h
    case cdata str => exact tailCase h
    case comment str => exact tailCase h

/-- An ok return of `parse_offers` always consumed at least one event. -/
theorem parse_offers_length_lt : ∀ {s : List Event} {pos : Nat}
    {r : Option Offer} {s' : List Event} {p' : Nat},
    parse_offers s pos = .ok (r, s', p') → s'.length < s.length := by
  intro s
  induction s with
  | nil => intro pos r s' p' h; simp [parse_offers] at h
  | cons e rest ih =>
    intro pos r s' p' h
    rw [parse_offers.eq_def] at h
    cases e <;> simp only at h
    case start n attrs =>
      split at h
      · split at h
        · exact Except.noConfusion h
        · rename_i o₁ s₁ p₁ heq
          simp only [Except.ok.injEq, Prod.mk.injEq] at h
          obtain ⟨-, hs, -⟩ := h
          subst hs
          have h1 := List.IsSuffix.length_le (by
            obtain ⟨c, hc, -⟩ := parse_offer_last heq
            exact ⟨c, hc.symm⟩ : s₁ <:+ rest)
          simp only [List.length_cons]
          omega
      · have := ih h
        simp only [List.length_cons]
        omega
    case empty n attrs =>
      have := ih h
      simp only [List.length_cons]
      omega
    case endTag n =>
      split at h
      · simp only [Except.ok.injEq, Prod.mk.injEq] at h
        obtain ⟨-, hs, -⟩ := h
        subst hs
        simp
      · have := ih h
        simp only [List.length_cons]
        omega
    case text str =>
      have := ih h
      simp only [List.length_cons]
      omega
    case cdata str =>
      have := ih h
      simp only [List.length_cons]
      omega
    case comment str =>
      have := ih h
      simp only [List.length_cons]
      omega

/-! ### Shop scope, catalog scope and the root loop -/

/-- `parse_shop_field`: dispatch on a shop-scope tag name, mutating the
in-progress catalog's shop (inserted with defaults on first use, mirroring
`get_or_insert`); unknown tags are ignored without consuming events. -/
def parse_shop_field (n : String) (yc : YmlCatalog) (s : List Event) (pos : Nat) :
    Except MarketXmlError (YmlCatalog × List Event × Nat) :=
  if n = "name" then
    match read_text s pos with
    | .error e => .error e
    | .ok (t, s', p') =>
      .ok ({ yc with shop := some { yc.shop.getD {} with name := t } }, s', p')
  else if n = "company" then
    match read_text s pos with
    | .error e => .error e
    | .ok (t, s', p') =>
      .ok ({ yc with shop := some { yc.shop.getD {} with company := t } }, s', p')
  else if n = "url" then
    match read_text s pos with
    | .error e => .error e
    | .ok (t, s', p') =>
      .ok ({ yc with shop := some { yc.shop.getD {} with url := t } }, s', p')
  else if n = "currencies" then
    match parse_currencies s pos with
    | .error e => .error e
    | .ok (cs, s', p') =>
      .ok ({ yc with shop := some { yc.shop.getD {} with currencies := cs } }, s', p')
  else if n = "categories" then
    match parse_categories s pos with
    | .error e => .error e
    | .ok (cs, s', p') =>
      .ok ({ yc with shop := some { yc.shop.getD {} with categories := cs } }, s', p')
  else if n = "delivery-options" then
    match parse_delivery_options s pos with
    | .error e => .error e
    | .ok (opts, s', p') =>
      .ok ({ yc with shop := some { yc.shop.getD {} with delivery_options := opts } }, s', p')
  else
    .ok (yc, s, pos)

theorem parse_shop_field_suffix {n : String} {yc : YmlCatalog} {s : List Event}
    {pos : Nat} {yc' : YmlCatalog} {s' : List Event} {p' : Nat}
    (h : parse_shop_field n yc s pos = .ok (yc', s', p')) : s' <:+ s := by
  unfold parse_shop_field at h
  repeat' split at h
  all_goals
    first
      | exact Except.noConfusion h
      | (simp only [Except.ok.injEq, Prod.mk.injEq] at h
         obtain ⟨h1, h2, h3⟩ := h
         subst h2
         first
           | exact List.suffix_rfl
           | exact read_text_suffix (by assumption)
           | exact parse_currencies_suffix (by assumption)
           | exact parse_categories_suffix (by assumption)
           | exact parse_delivery_options_suffix (by assumption))

/-- `parse_shop`: the shop-scope loop.  Open or self-closing tags other than
`offers` are dispatched to `parse_offer_field`-style shop extraction; the
`offers` open tag moves to the `Offers` state, the `shop` closing tag back to
the catalog state; end-of-stream is an `UnexpectedEof`. -/
def parse_shop (yc : YmlCatalog) : List Event → Nat → Except MarketXmlError (State × YmlCatalog × List Event × Nat)
  | [], pos => .error (.xml (.unexpectedEof "shop") pos)
  | .start n attrs :: rest, pos
  | .empty n attrs :: rest, pos =>
    if n = "offers" then .ok (.offers, yc, rest, pos + 1)
    else
      match h : parse_shop_field n yc rest (pos + 1) with
      | .error err => .error err
      | .ok (yc', s', p') => parse_shop yc' s' p'
  | .endTag n :: rest, pos =>
    if n = "shop" then .ok (.ymlCatalog, yc, rest, pos + 1)
    else parse_shop yc rest (pos + 1)
  | _ :: rest, pos => parse_shop yc rest (pos + 1)
termination_by s _ => s.length
decreasing_by
  all_goals simp only [List.length_cons]
  all_goals try omega
  all_goals have := List.IsSuffix.length_le (parse_shop_field_suffix h)
  all_goals omega

/-- An ok return of `parse_shop` always consumed at least one event. -/
theorem parse_shop_length_lt_aux : ∀ (n : Nat) (s : List Event), s.length ≤ n →
    ∀ {yc : YmlCatalog} {pos : Nat} {st : State} {yc' : YmlCatalog}
      {s' : List Event} {p' : Nat},
    parse_shop yc s pos = .ok (st, yc', s', p') → s'.length < s.length := by
  intro n
  induction n with
  | zero =>
    intro s hs yc pos st yc' s' p' h
    rw [List.length_eq_zero.mp (Nat.le_zero.mp hs)] at h
    simp [parse_shop] at h
  | succ n ih =>
    intro s hs yc pos st yc' s' p' h
    match s with
    | [] => simp [parse_shop] at h
    | e :: rest =>
      have hr : rest.length ≤ n := by
        simp only [List.length_cons] at hs; omega
      rw [parse_shop.eq_def] at h
      cases e <;> simp only at h
      case start nm attrs =>
        split at h
        · simp only [Except.ok.injEq, Prod.mk.injEq] at h
          obtain ⟨-, -, hsx, -⟩ := h
          subst hsx
          simp
        · split at h
          · exact Except.noConfusion h
          · rename_i yc₁ s₁ p₁ heq
            have hsfx := List.IsSuffix.length_le (parse_shop_field_suffix heq)
            have hlt := ih s₁ (by omega) h
            simp only [List.length_cons]
            omega
      case empty nm attrs =>
        split at h
        · simp only [Except.ok.injEq, Prod.mk.injEq] at h
          obtain ⟨-, -, hsx, -⟩ := h
          subst hsx
          simp
        · split at h
          · exact Except.noConfusion h
          · rename_i yc₁ s₁ p₁ heq
            have hsfx := List.IsSuffix.length_le (parse_shop_field_suffix heq)
            have hlt := ih s₁ (by omega) h
            simp only [List.length_cons]
            omega
      case endTag nm =>
        split at h
        · simp only [Except.ok.injEq, Prod.mk.injEq] at h
          obtain ⟨-, -, hsx, -⟩ := h
          subst hsx
          simp
        · have := ih rest hr h
          simp only [List.length_cons]
          omega
      case text str =>
        have := ih rest hr h
        simp only [List.length_cons]
        omega
      case cdata str =>
        have := ih rest hr h
        simp only [List.length_cons]
        omega
      case comment str =>
        have := ih rest hr h
        simp only [List.length_cons]
        omega

theorem parse_shop_length_lt {yc : YmlCatalog} {s : List Event} {pos : Nat}
    {st : State} {yc' : YmlCatalog} {s' : List Event} {p' : Nat}
    (h : parse_shop yc s pos = .ok (st, yc', s', p')) : s'.length < s.length :=
  parse_shop_length_lt_aux s.length s le_rfl h

/-- `begin`: consume events until the first open tag.  The `yml_catalog` root
tag has its attributes (the date) captured and moves to the catalog state;
any other open tag is an `UnexpectedTag` failure carrying the tag name;
end-of-stream is an `UnexpectedEof` syntax error. -/
def begin (yc : YmlCatalog) : List Event → Nat → Except MarketXmlError (State × YmlCatalog × List Event × Nat)
  | [], pos => .error (.xml (.unexpectedEof "yandex market file") pos)
  | .start n attrs :: rest, pos =>
    if n = "yml_catalog" then
      .ok (.ymlCatalog, parse_yml_catalog_attrs attrs yc, rest, pos + 1)
    else
      .error (.unexpectedTag n (pos + 1))
  | _ :: rest, pos => begin yc rest (pos + 1)

theorem begin_length_lt : ∀ {s : List Event} {pos : Nat} {yc : YmlCatalog}
    {st : State} {yc' : YmlCatalog} {s' : List Event} {p' : Nat},
    begin yc s pos = .ok (st, yc', s', p') → s'.length < s.length := by
  intro s
  induction s with
  | nil => intro pos yc st yc' s' p' h; simp [begin] at h
  | cons e rest ih =>
    intro pos yc st yc' s' p' h
    rw [begin.eq_def] at h
    cases e <;> simp only at h
    case start n attrs =>
      split at h
      · simp only [Except.ok.injEq, Prod.mk.injEq] at h
        obtain ⟨-, -, hsx, -⟩ := h
        subst hsx
        simp
      · exact Except.noConfusion h
    case empty n attrs =>
      have := ih h
      simp only [List.length_cons]
      omega
    case endTag n =>
      have := ih h
      simp only [List.length_cons]
      omega
    case text str =>
      have := ih h
      simp only [List.length_cons]
      omega
    case cdata str =>
      have := ih h
      simp only [List.length_cons]
      omega
    case comment str =>
      have := ih h
      simp only [List.length_cons]
      omega

/-- `parse_yml_catalog`: the catalog-scope loop.  The `shop` open tag moves to
the shop state, the `yml_catalog` closing tag to the terminal state; all other
events are skipped; end-of-stream is an `UnexpectedEof`. -/
def parse_yml_catalog : List Event → Nat → Except MarketXmlError (State × List Event × Nat)
  | [], pos => .error (.xml (.unexpectedEof "yml_catalog") pos)
  | .start n _ :: rest, pos =>
    if n = "shop" then .ok (.shop, rest, pos + 1)
    else parse_yml_catalog rest (pos + 1)
  | .endTag n :: rest, pos =>
    if n = "yml_catalog" then .ok (.end_, rest, pos + 1)
    else parse_yml_catalog rest (pos + 1)
  | _ :: rest, pos => parse_yml_catalog rest (pos + 1)

theorem parse_yml_catalog_length_lt : ∀ {s : List Event} {pos : Nat}
    {st : State} {s' : List Event} {p' : Nat},
    parse_yml_catalog s pos = .ok (st, s', p') → s'.length < s.length := by
  intro s
  induction s with
  | nil => intro pos st s' p' h; simp [parse_yml_catalog] at h
  | cons e rest ih =>
    intro pos st s' p' h
    rw [parse_yml_catalog.eq_def] at h
    cases e <;> simp only at h
    case start n attrs =>
      split at h
      · simp only [Except.ok.injEq, Prod.mk.injEq] at h
        obtain ⟨-, hsx, -⟩ := h
        subst hsx
        simp
      · have := ih h
        simp only [List.length_cons]
        omega
    case empty n attrs =>
      have := ih h
      simp only [List.length_cons]
      omega
    case endTag n =>
      split at h
      · simp only [Except.ok.injEq, Prod.mk.injEq] at h
        obtain ⟨-, hsx, -⟩ := h
        subst hsx
        simp
      · have := ih h
        simp only [List.length_cons]
        omega
    case text str =>
      have := ih h
      simp only [List.length_cons]
      omega
    case cdata str =>
      have := ih h
      simp only [List.length_cons]
      omega
    case comment str =>
      have := ih h
      simp only [List.length_cons]
      omega

/-! ### The pull interface -/

/-- The parser's mutable state: the remaining event stream (standing for the
tokenizer's position in the input), the abstract position counter, the
top-level state, and the accumulated catalog record. -/
structure PState where
  stream : List Event
  pos : Nat
  state : State
  yml_catalog : YmlCatalog
deriving DecidableEq

/-- `next_item`: the pull interface.  Loops over the top-level state machine
until one record is produced: an `Offer` from the offers scope (leaving the
state in `Offers`), the accumulated `YmlCatalog` when the catalog scope
closes (state `End`), or `Eof` forever once in the terminal state. -/
def next_item (ps : PState) : Except MarketXmlError (ParsedItem × PState) :=
  match ps.state with
  | .begin =>
    match h : begin ps.yml_catalog ps.stream ps.pos with
    | .error e => .error e
    | .ok (st, yc, s, p) => next_item ⟨s, p, st, yc⟩
  | .ymlCatalog =>
    match h : parse_yml_catalog ps.stream ps.pos with
    | .error e => .error e
    | .ok (st, s, p) =>
      if st = State.end_ then
        .ok (.ymlCatalog ps.yml_catalog, ⟨s, p, st, ps.yml_catalog⟩)
      else
        next_item ⟨s, p, st, ps.yml_catalog⟩
  | .shop =>
    match h : parse_shop ps.yml_catalog ps.stream ps.pos with
    | .error e => .error e
    | .ok (st, yc, s, p) => next_item ⟨s, p, st, yc⟩
  | .offers =>
    match h : parse_offers ps.stream ps.pos with
    | .error e => .error e
    | .ok (some o, s, p) => .ok (.offer o, ⟨s, p, .offers, ps.yml_catalog⟩)
    | .ok (none, s, p) => next_item ⟨s, p, .shop, ps.yml_catalog⟩
  | .end_ => .ok (.eof, ps)
termination_by ps.stream.length
decreasing_by
  · have := begin_length_lt h
    simpa using this
  · have := parse_yml_catalog_length_lt h
    simpa using this
  · have := parse_shop_length_lt h
    simpa using this
  · have := parse_offers_length_lt h
    simpa using this

/-! ### Step lemmas for the pull interface -/

theorem next_item_end {stream : List Event} {pos : Nat} {yc : YmlCatalog} :
    next_item ⟨stream, pos, .end_, yc⟩ = .ok (.eof, ⟨stream, pos, .end_, yc⟩) := by
  rw [next_item.eq_def]

theorem next_item_offers_some {stream : List Event} {pos : Nat} {yc : YmlCatalog}
    {o : Offer} {s : List Event} {p : Nat}
    (hp : parse_offers stream pos = .ok (some o, s, p)) :
    next_item ⟨stream, pos, .offers, yc⟩ = .ok (.offer o, ⟨s, p, .offers, yc⟩) := by
  rw [next_item.eq_def]
  simp only
  split
  · rename_i e heq
    rw [hp] at heq
    exact Except.noConfusion heq
  · rename_i o1 s1 p1 heq
    rw [hp] at heq
    simp only [Except.ok.injEq, Prod.mk.injEq, Option.some.injEq] at heq
    obtain ⟨ho, hs, hpp⟩ := heq
    subst ho; subst hs; subst hpp
    rfl
  · rename_i s1 p1 heq
    rw [hp] at heq
    simp at heq

theorem next_item_offers_none {stream : List Event} {pos : Nat} {yc : YmlCatalog}
    {s : List Event} {p : Nat}
    (hp : parse_offers stream pos = .ok (none, s, p)) :
    next_item ⟨stream, pos, .offers, yc⟩ = next_item ⟨s, p, .shop, yc⟩ := by
  rw [next_item.eq_def]
  simp only
  split
  · rename_i e heq
    rw [hp] at heq
    exact Except.noConfusion heq
  · rename_i o1 s1 p1 heq
    rw [hp] at heq
    simp at heq
  · rename_i s1 p1 heq
    rw [hp] at heq
    simp only [Except.ok.injEq, Prod.mk.injEq] at heq
    obtain ⟨-, hs, hpp⟩ := heq
    subst hs; subst hpp
    rfl

theorem next_item_offers_error {stream : List Event} {pos : Nat} {yc : YmlCatalog}
    {e : MarketXmlError}
    (hp : parse_offers stream pos = .error e) :
    next_item ⟨stream, pos, .offers, yc⟩ = .error e := by
  rw [next_item.eq_def]
  simp only
  split
  · rename_i e1 heq
    rw [hp] at heq
    simp only [Except.error.injEq] at heq
    rw [heq]
  · rename_i o1 s1 p1 heq
    rw [hp] at heq
    exact Except.noConfusion heq
  · rename_i s1 p1 heq
    rw [hp] at heq
    exact Except.noConfusion heq

theorem next_item_begin_error {stream : List Event} {pos : Nat} {yc : YmlCatalog}
    {e : MarketXmlError}
    (hp : begin yc stream pos = .error e) :
    next_item ⟨stream, pos, .begin, yc⟩ = .error e := by
  rw [next_item.eq_def]
  simp only
  split
  · rename_i e1 heq
    rw [hp] at heq
    simp only [Except.error.injEq] at heq
    rw [heq]
  · rename_i st1 yc1 s1 p1 heq
    rw [hp] at heq
    exact Except.noConfusion heq

theorem next_item_begin_ok {stream : List Event} {pos : Nat} {yc : YmlCatalog}
    {st : State} {yc' : YmlCatalog} {s : List Event} {p : Nat}
    (hp : begin yc stream pos = .ok (st, yc', s, p)) :
    next_item ⟨stream, pos, .begin, yc⟩ = next_item ⟨s, p, st, yc'⟩ := by
  rw [next_item.eq_def]
  simp only
  split
  · rename_i e1 heq
    rw [hp] at heq
    exact Except.noConfusion heq
  · rename_i st1 yc1 s1 p1 heq
    rw [hp] at heq
    simp only [Except.ok.injEq, Prod.mk.injEq] at heq
    obtain ⟨h1, h2, h3, h4⟩ := heq
    subst h1; subst h2; subst h3; subst h4
    rfl

theorem next_item_yml_error {stream : List Event} {pos : Nat} {yc : YmlCatalog}
    {e : MarketXmlError}
    (hp : parse_yml_catalog stream pos = .error e) :
    next_item ⟨stream, pos, .ymlCatalog, yc⟩ = .error e := by
  rw [next_item.eq_def]
  simp only
  split
  · rename_i e1 heq
    rw [hp] at heq
    simp only [Except.error.injEq] at heq
    rw [heq]
  · rename_i st1 s1 p1 heq
    rw [hp] at heq
    exact Except.noConfusion heq

theorem next_item_yml_ok {stream : List Event} {pos : Nat} {yc : YmlCatalog}
    {st : State} {s : List Event} {p : Nat}
    (hp : parse_yml_catalog stream pos = .ok (st, s, p)) :
    next_item ⟨stream, pos, .ymlCatalog, yc⟩ =
      (if st = State.end_ then .ok (.ymlCatalog yc, ⟨s, p, st, yc⟩)
       else next_item ⟨s, p, st, yc⟩) := by
  rw [next_item.eq_def]
  simp only
  split
  · rename_i e1 heq
    rw [hp] at heq
    exact Except.noConfusion heq
  · rename_i st1 s1 p1 heq
    rw [hp] at heq
    simp only [Except.ok.injEq, Prod.mk.injEq] at heq
    obtain ⟨h1, h2, h3⟩ := heq
    subst h1; subst h2; subst h3
    rfl

theorem next_item_shop_error {stream : List Event} {pos : Nat} {yc : YmlCatalog}
    {e : MarketXmlError}
    (hp : parse_shop yc stream pos = .error e) :
    next_item ⟨stream, pos, .shop, yc⟩ = .error e := by
  rw [next_item.eq_def]
  simp only
  split
  · rename_i e1 heq
    rw [hp] at heq
    simp only [Except.error.injEq] at heq
    rw [heq]
  · rename_i st1 yc1 s1 p1 heq
    rw [hp] at heq
    exact Except.noConfusion heq

theorem next_item_shop_ok {stream : List Event} {pos : Nat} {yc : YmlCatalog}
    {st : State} {yc' : YmlCatalog} {s : List Event} {p : Nat}
    (hp : parse_shop yc stream pos = .ok (st, yc', s, p)) :
    next_item ⟨stream, pos, .shop, yc⟩ = next_item ⟨s, p, st, yc'⟩ := by
  rw [next_item.eq_def]
  simp only
  split
  · rename_i e1 heq
    rw [hp] at heq
    exact Except.noConfusion heq
  · rename_i st1 yc1 s1 p1 heq
    rw [hp] at heq
    simp only [Except.ok.injEq, Prod.mk.injEq] at heq
    obtain ⟨h1, h2, h3, h4⟩ := heq
    subst h1; subst h2; subst h3; subst h4
    rfl

/-- Producing `Eof` happens only in the terminal state, and the state it
leaves behind keeps producing `Eof` without any further change. -/
theorem next_item_eof_aux : ∀ (n : Nat), ∀ (ps : PState), ps.stream.length ≤ n →
    ∀ {ps' : PState}, next_item ps = .ok (.eof, ps') →
    next_item ps' = .ok (.eof, ps') ∧ ps'.state = .end_ := by
  intro n
  induction n using Nat.strong_induction_on with
  | _ n ih =>
    intro ps hlen ps' h
    obtain ⟨stream, pos, st, yc⟩ := ps
    simp only at hlen
    cases st
    case begin =>
      cases hb : begin yc stream pos with
      | error e =>
        rw [next_item_begin_error hb] at h
        exact Except.noConfusion h
      | ok r =>
        obtain ⟨st₁, yc₁, s₁, p₁⟩ := r
        rw [next_item_begin_ok hb] at h
        have hlt := begin_length_lt hb
        exact ih s₁.length (by omega) ⟨s₁, p₁, st₁, yc₁⟩ (by simp) h
    case ymlCatalog =>
      cases hb : parse_yml_catalog stream pos with
      | error e =>
        rw [next_item_yml_error hb] at h
        exact Except.noConfusion h
      | ok r =>
        obtain ⟨st₁, s₁, p₁⟩ := r
        rw [next_item_yml_ok hb] at h
        by_cases hend : st₁ = State.end_
        · rw [if_pos hend] at h
          simp only [Except.ok.injEq, Prod.mk.injEq] at h
          exact ParsedItem.noConfusion h.1
        · rw [if_neg hend] at h
          have hlt := parse_yml_catalog_length_lt hb
          exact ih s₁.length (by omega) ⟨s₁, p₁, st₁, yc⟩ (by simp) h
    case shop =>
      cases hb : parse_shop yc stream pos with
      | error e =>
        rw [next_item_shop_error hb] at h
        exact Except.noConfusion h
      | ok r =>
        obtain ⟨st₁, yc₁, s₁, p₁⟩ := r
        rw [next_item_shop_ok hb] at h
        have hlt := parse_shop_length_lt hb
        exact ih s₁.length (by omega) ⟨s₁, p₁, st₁, yc₁⟩ (by simp) h
    case offers =>
      cases hb : parse_offers stream pos with
      | error e =>
        rw [next_item_offers_error hb] at h
        exact Except.noConfusion h
      | ok r =>
        obtain ⟨oo, s₁, p₁⟩ := r
        cases oo with
        | some o =>
          rw [next_item_offers_some hb] at h
          simp only [Except.ok.injEq, Prod.mk.injEq] at h
          exact ParsedItem.noConfusion h.1
        | none =>
          rw [next_item_offers_none hb] at h
          have hlt := parse_offers_length_lt hb
          exact ih s₁.length (by omega) ⟨s₁, p₁, .shop, yc⟩ (by simp) h
    case end_ =>
      rw [next_item_end] at h
      simp only [Except.ok.injEq, Prod.mk.injEq, true_and] at h
      subst h
      exact ⟨next_item_end, rfl⟩

/-! ### Small step facts used by the claim theorems -/

theorem parse_offer_fields_close {o : Offer} {rest : List Event} {pos : Nat} :
    parse_offer_fields o (.endTag "offer" :: rest) pos = .ok (o, rest, pos + 1) := by
  rw [parse_offer_fields.eq_def]
  simp

/-- Is this event a `Start` (open) tag? -/
def Event.isStart : Event → Bool
  | .start _ _ => true
  | _ => false

theorem price_from_foldl (attrs : List Attr) (b : Bool) :
    (attrs.foldl (fun fl a => if a.1 = "from" ∧ a.2 = "true" then true else fl) b = true)
      ↔ (b = true ∨ ("from", "true") ∈ attrs) := by
  induction attrs generalizing b with
  | nil => simp
  | cons a rest ih =>
    obtain ⟨k, v⟩ := a
    simp only [List.foldl_cons, List.mem_cons, ih]
    by_cases hkv : k = "from" ∧ v = "true"
    · rw [if_pos hkv]
      obtain ⟨hk, hv⟩ := hkv
      subst hk; subst hv
      simp
    · rw [if_neg hkv]
      constructor
      · rintro (hb | hm)
        · exact Or.inl hb
        · exact Or.inr (Or.inr hm)
      · rintro (hb | hm | hm)
        · exact Or.inl hb
        · exact absurd ⟨(Prod.mk.injEq .. ▸ hm).1.symm, (Prod.mk.injEq .. ▸ hm).2.symm⟩ hkv
        · exact Or.inr hm

theorem parse_delivery_option_attrs_order_before : ∀ (attrs : List Attr)
    (o : DeliveryOption) (pos : Nat) (opt : DeliveryOption),
    "order-before" ∉ attrs.map Prod.fst →
    parse_delivery_option_attrs pos attrs o = .ok opt →
    opt.order_before = o.order_before := by
  intro attrs
  induction attrs with
  | nil =>
    intro o pos opt hmem hok
    simp only [parse_delivery_option_attrs, Except.ok.injEq] at hok
    rw [← hok]
  | cons a rest ih =>
    intro o pos opt hmem hok
    obtain ⟨k, v⟩ := a
    simp only [List.map_cons, List.mem_cons] at hmem
    push_neg at hmem
    obtain ⟨hk, hrest⟩ := hmem
    rw [parse_delivery_option_attrs.eq_def] at hok
    simp only at hok
    by_cases h1 : k = "cost"
    · rw [if_pos h1] at hok
      split at hok
      · exact Except.noConfusion hok
      · rename_i n heq
        exact ih { o with cost := n } pos opt hrest hok
    · rw [if_neg h1] at hok
      by_cases h2 : k = "days"
      · rw [if_pos h2] at hok
        simp only [decode_value] at hok
        exact ih { o with days := v } pos opt hrest hok
      · rw [if_neg h2, if_neg (fun hh => hk hh.symm)] at hok
        exact ih o pos opt hrest hok

/-! ### Claim theorems -/

/-- C3: once `next_item` has produced the end-of-stream marker, the resulting
parser state is the terminal `End` state and every further call returns the
same `Eof` marker with the state unchanged: `End` is terminal and absorbing. -/
theorem c3_eof_terminal (ps ps' : PState) (h : next_item ps = .ok (.eof, ps')) :
    next_item ps' = .ok (.eof, ps') ∧ ps'.state = .end_ :=
  next_item_eof_aux ps.stream.length ps le_rfl h

theorem c3_witness :
    next_item ⟨[], 0, .end_, {}⟩ = .ok (.eof, (⟨[], 0, .end_, {}⟩ : PState)) ∧
    (⟨[], 0, .end_, {}⟩ : PState).state = .end_ :=
  c3_eof_terminal ⟨[], 0, .end_, {}⟩ ⟨[], 0, .end_, {}⟩ next_item_end

/-- C4: in the `Offers` state, when the offers loop produces an offer,
`next_item` returns exactly that offer, the top-level state is still
`Offers`, the accumulated catalog/shop record is unchanged, and the events
consumed for it end precisely with the offer's closing tag (the offer is
emitted at the moment its closing tag is observed). -/
theorem c4_offer_emission (ps : PState) (o : Offer) (s' : List Event) (p' : Nat)
    (hst : ps.state = .offers)
    (hp : parse_offers ps.stream ps.pos = .ok (some o, s', p')) :
    next_item ps = .ok (.offer o, ⟨s', p', .offers, ps.yml_catalog⟩) ∧
    ∃ c, ps.stream = c ++ s' ∧ c.getLast? = some (.endTag "offer") := by
  obtain ⟨stream, pos, st, yc⟩ := ps
  simp only at hst hp ⊢
  subst hst
  exact ⟨next_item_offers_some hp, parse_offers_some_last hp⟩

theorem c4_witness :
    next_item ⟨[.start "offer" [], .endTag "offer"], 0, .offers, {}⟩ =
      .ok (.offer {}, (⟨[], 2, .offers, {}⟩ : PState)) :=
  (c4_offer_emission ⟨[.start "offer" [], .endTag "offer"], 0, .offers, {}⟩ {} [] 2 rfl
    (by simp [parse_offers, parse_offer, parse_offer_attributes, parse_offer_fields_close])).1

/-- C5: in the `Begin` state events are consumed until the first open tag;
the `yml_catalog` root tag has its `date` attribute captured and the state
moves to the catalog state; any other open tag fails `next_item` with
`UnexpectedTag` carrying the tag name and position; end-of-stream before any
root open tag is a `SyntaxError` (unexpected end of stream). -/
theorem c5_begin_state (e : Event) (n d : String) (a : List Attr) (rest : List Event)
    (pos : Nat) (yc : YmlCatalog) (ps : PState) :
    (begin yc [] pos = .error (.xml (.unexpectedEof "yandex market file") pos)) ∧
    (e.isStart = false → begin yc (e :: rest) pos = begin yc rest (pos + 1)) ∧
    (begin yc (.start "yml_catalog" a :: rest) pos =
      .ok (.ymlCatalog, parse_yml_catalog_attrs a yc, rest, pos + 1)) ∧
    (parse_yml_catalog_attrs [("date", d)] yc = { yc with date := d }) ∧
    (n ≠ "yml_catalog" → begin yc (.start n a :: rest) pos = .error (.unexpectedTag n (pos + 1))) ∧
    (∀ err, ps.state = .begin → begin ps.yml_catalog ps.stream ps.pos = .error err →
      next_item ps = .error err) := by
  refine ⟨rfl, ?_, rfl, rfl, ?_, ?_⟩
  · intro he
    cases e with
    | start n' a' => simp [Event.isStart] at he
    | empty n' a' => rfl
    | endTag n' => rfl
    | text t => rfl
    | cdata t => rfl
    | comment t => rfl
  · intro hn
    rw [begin.eq_def]
    simp only
    rw [if_neg hn]
  · intro err hst hb
    obtain ⟨stream, pos₀, st, yc₀⟩ := ps
    simp only at hst hb ⊢
    subst hst
    exact next_item_begin_error hb

theorem c5_witness :
    begin {} [.text "x"] 0 = begin {} [] 1 ∧
    begin {} [.start "foo" []] 0 = .error (.unexpectedTag "foo" 1) := by
  have h := c5_begin_state (.text "x") "foo" "d" [] [] 0 {} ⟨[], 0, .begin, {}⟩
  exact ⟨h.2.1 rfl, h.2.2.2.2.1 (by decide)⟩

/-- C6: a delivery/pickup option whose attribute list has no `order-before`
key parses with an unset `order_before` (not zero); an empty `order-before`
value is also unset; a non-empty value that fails the unsigned-integer
coercion is a `Validation` error carrying the literal. -/
theorem c6_order_before (attrs : List Attr) (v : String) (pos : Nat) :
    (∀ opt : DeliveryOption, "order-before" ∉ attrs.map Prod.fst →
      parse_delivery_option attrs pos = .ok opt → opt.order_before = none) ∧
    (parse_opt rustParseU64 "" pos = .ok none) ∧
    (v ≠ "" → rustParseU64 v = none →
      parse_opt rustParseU64 v pos = .error (.validation "parse" pos v)) := by
  refine ⟨?_, rfl, ?_⟩
  · intro opt hmem hok
    exact parse_delivery_option_attrs_order_before attrs {} pos opt hmem hok
  · intro h1 h2
    rw [parse_opt, if_neg h1]
    simp only [decode_value, h2]

theorem c6_witness :
    ((⟨1, "", none⟩ : DeliveryOption).order_before = none) ∧
    (parse_opt rustParseU64 "" 0 = .ok none) ∧
    (parse_opt rustParseU64 "x" 0 = .error (.validation "parse" 0 "x")) := by
  have h := c6_order_before [("cost", "1")] "x" 0
  exact ⟨h.1 ⟨1, "", none⟩ (by decide) rfl, h.2.1, h.2.2 (by decide) (by decide)⟩

/-- C8: the `from` flag of a parsed price is true exactly when some `from`
attribute of the tag has the literal `"true"`; any other literal (and the
attribute's absence) leaves it false. -/
theorem c8_price_from (attrs : List Attr) (s s' : List Event) (pos p' : Nat) (pr : Price)
    (h : parse_price attrs s pos = .ok (pr, s', p')) :
    pr.«from» = true ↔ ("from", "true") ∈ attrs := by
  unfold parse_price at h
  cases hr : read_value rustParseDecimal s pos with
  | error e => rw [hr] at h; exact Except.noConfusion h
  | ok r =>
    obtain ⟨v, s₁, p₁⟩ := r
    rw [hr] at h
    simp only [Except.ok.injEq, Prod.mk.injEq] at h
    rw [← h.1]
    simp only [price_from_foldl]
    simp

theorem c8_witness :
    (⟨1, true⟩ : Price).«from» = true ↔ ("from", "true") ∈ [("from", "true")] :=
  c8_price_from [("from", "true")] [.text "1", .endTag "price"] [] 0 2 ⟨1, true⟩ (by decide)

/-- C10: the delivery/pickup option sub-loop returns at the first closing tag
it sees, whatever its name; in particular an option written with a separate
closing tag terminates the list right after it, so later option elements of
the same list are not appended. -/
theorem c10_options_first_close (n : String) (a₁ a₂ : List Attr) (rest : List Event)
    (pos : Nat) (o₁ : DeliveryOption)
    (h : parse_delivery_option a₁ (pos + 1) = .ok o₁) :
    (parse_delivery_options (.endTag n :: rest) pos = .ok ([], rest, pos + 1)) ∧
    (parse_delivery_options
        (.start "option" a₁ :: .endTag "option" :: .empty "option" a₂ ::
          .endTag "delivery-options" :: rest) pos
      = .ok ([o₁], .empty "option" a₂ :: .endTag "delivery-options" :: rest, pos + 2)) := by
  refine ⟨rfl, ?_⟩
  rw [parse_delivery_options.eq_def]
  simp only [h]
  rfl

theorem c10_witness :
    parse_delivery_options
        [.start "option" [("cost", "1")], .endTag "option",
         .empty "option" [("cost", "2")], .endTag "delivery-options"] 0
      = .ok ([⟨1, "", none⟩],
             [.empty "option" [("cost", "2")], .endTag "delivery-options"], 2) := by
  have h := (c10_options_first_close "x" [("cost", "1")] [("cost", "2")] [] 0
    ⟨1, "", none⟩ (by rfl)).2
  simpa using h

theorem parse_offer_attributes_available_cons (pos : Nat) (v : String) (rest : List Attr)
    (o : Offer) :
    parse_offer_attributes pos (("available", v) :: rest) o =
      (if v = "false" ∨ v = "0" then
        parse_offer_attributes pos rest { o with available := some false }
       else if v = "true" ∨ v = "1" then
        parse_offer_attributes pos rest { o with available := some true }
       else if v = "" then
        parse_offer_attributes pos rest { o with available := none }
       else .error (.validation "parse bool" pos v)) := rfl

theorem parse_offer_attributes_available_absent : ∀ (attrs : List Attr) (o : Offer)
    (pos : Nat) (o' : Offer),
    "available" ∉ attrs.map Prod.fst →
    parse_offer_attributes pos attrs o = .ok o' → o'.available = o.available := by
  intro attrs
  induction attrs with
  | nil =>
    intro o pos o' hmem hok
    simp only [parse_offer_attributes, Except.ok.injEq] at hok
    rw [← hok]
  | cons a rest ih =>
    intro o pos o' hmem hok
    obtain ⟨k, v⟩ := a
    simp only [List.map_cons, List.mem_cons] at hmem
    push_neg at hmem
    obtain ⟨hk, hrest⟩ := hmem
    rw [parse_offer_attributes.eq_def] at hok
    simp only at hok
    by_cases h1 : k = "id"
    · rw [if_pos h1] at hok
      exact ih { o with id := v } pos o' hrest hok
    · rw [if_neg h1] at hok
      by_cases h2 : k = "type"
      · rw [if_pos h2] at hok
        exact ih { o with type := v } pos o' hrest hok
      · rw [if_neg h2] at hok
        by_cases h3 : k = "bid"
        · rw [if_pos h3] at hok
          split at hok
          · exact Except.noConfusion hok
          · rename_i n heq
            exact ih { o with bid := n } pos o' hrest hok
        · rw [if_neg h3] at hok
          by_cases h4 : k = "cbid"
          · rw [if_pos h4] at hok
            split at hok
            · exact Except.noConfusion hok
            · rename_i n heq
              exact ih { o with cbid := n } pos o' hrest hok
          · rw [if_neg h4, if_neg (fun hh => hk hh.symm)] at hok
            exact ih o pos o' hrest hok

/-- C1, counterexample to the claim as stated: an offer open-tag whose
`available` attribute has the empty literal parses successfully with
`available` unset (`none`), not `false` as the claim requires. -/
theorem c1_counterexample :
    parse_offer_attributes 0 [("available", "")] {} = .ok ({} : Offer) ∧
    ({} : Offer).available = none ∧ ({} : Offer).available ≠ some false :=
  ⟨rfl, rfl, by decide⟩

/-- C1, amended: `available` is unset when the attribute is absent, `false`
for the literals `"false"`/`"0"`, `true` for `"true"`/`"1"`, unset (not
false) for the empty literal, and a `Validation` error carrying the literal
for anything else. -/
theorem c1_available_tri_state (v : String) (pos : Nat) (o o' : Offer) (attrs : List Attr) :
    ("available" ∉ attrs.map Prod.fst → parse_offer_attributes pos attrs o = .ok o' →
      o'.available = o.available) ∧
    (({} : Offer).available = none) ∧
    (parse_offer_attributes pos [("available", "")] o = .ok { o with available := none }) ∧
    ((v = "false" ∨ v = "0") →
      parse_offer_attributes pos [("available", v)] o = .ok { o with available := some false }) ∧
    ((v = "true" ∨ v = "1") →
      parse_offer_attributes pos [("available", v)] o = .ok { o with available := some true }) ∧
    (v ≠ "false" → v ≠ "0" → v ≠ "true" → v ≠ "1" → v ≠ "" →
      parse_offer_attributes pos [("available", v)] o = .error (.validation "parse bool" pos v)) := by
  refine ⟨parse_offer_attributes_available_absent attrs o pos o', rfl, rfl, ?_, ?_, ?_⟩
  · intro hv
    rw [parse_offer_attributes_available_cons, if_pos hv]
    rfl
  · intro hv
    have hv' : ¬(v = "false" ∨ v = "0") := by
      rcases hv with h | h <;> subst h <;> decide
    rw [parse_offer_attributes_available_cons, if_neg hv', if_pos hv]
    rfl
  · intro h1 h2 h3 h4 h5
    rw [parse_offer_attributes_available_cons,
      if_neg (by simp [h1, h2]), if_neg (by simp [h3, h4]), if_neg h5]

theorem c1_witness :
    parse_offer_attributes 0 [("available", "x")] {} =
      .error (.validation "parse bool" 0 "x") :=
  (c1_available_tri_state "x" 0 {} {} []).2.2.2.2.2
    (by decide) (by decide) (by decide) (by decide) (by decide)

/-! ### Child-step and position-irrelevance helpers -/

theorem parse_currencies_child (a : List Attr) (rest : List Event) (pos : Nat) :
    parse_currencies (.empty "currency" a :: rest) pos =
      (parse_currencies rest (pos + 1)).map (fun r => (parse_currency a :: r.1, r.2)) := by
  cases hrec : parse_currencies rest (pos + 1) with
  | error e => simp [parse_currencies, hrec, Except.map]
  | ok r => simp [parse_currencies, hrec, Except.map]

theorem parse_categories_child {a : List Attr} {rest : List Event} {pos : Nat}
    {cat : Category} {s₁ : List Event} {p₁ : Nat}
    (hcat : parse_category a rest (pos + 1) = .ok (cat, s₁, p₁)) :
    parse_categories (.start "category" a :: rest) pos =
      (parse_categories s₁ p₁).map (fun r => (cat :: r.1, r.2)) := by
  rw [parse_categories.eq_def]
  simp only [if_true]
  split
  · rename_i err heq
    rw [hcat] at heq
    exact Except.noConfusion heq
  · rename_i cat₂ s₂ p₂ heq
    rw [hcat] at heq
    simp only [Except.ok.injEq, Prod.mk.injEq] at heq
    obtain ⟨h1, h2, h3⟩ := heq
    subst h1; subst h2; subst h3
    cases hrec : parse_categories s₁ p₁ with
    | error e => simp [hrec, Except.map]
    | ok r => simp [hrec, Except.map]

theorem parse_delivery_options_child {a : List Attr} {rest : List Event} {pos : Nat}
    {opt : DeliveryOption}
    (hopt : parse_delivery_option a (pos + 1) = .ok opt) :
    parse_delivery_options (.start "option" a :: rest) pos =
      (parse_delivery_options rest (pos + 1)).map (fun r => (opt :: r.1, r.2)) := by
  rw [parse_delivery_options.eq_def]
  simp only [hopt]
  cases hrec : parse_delivery_options rest (pos + 1) with
  | error e => simp [hrec, Except.map]
  | ok r => simp [hrec, Except.map]

theorem parse_delivery_options_child_empty {a : List Attr} {rest : List Event} {pos : Nat}
    {opt : DeliveryOption}
    (hopt : parse_delivery_option a (pos + 1) = .ok opt) :
    parse_delivery_options (.empty "option" a :: rest) pos =
      (parse_delivery_options rest (pos + 1)).map (fun r => (opt :: r.1, r.2)) := by
  rw [parse_delivery_options.eq_def]
  simp only [hopt]
  cases hrec : parse_delivery_options rest (pos + 1) with
  | error e => simp [hrec, Except.map]
  | ok r => simp [hrec, Except.map]

theorem parse_value_pos_irrel {α : Type _} {p : String → Option α} {v : String}
    {pos pos' : Nat} {x : α}
    (h : parse_value p v pos = .ok x) : parse_value p v pos' = .ok x := by
  simp only [parse_value, decode_value] at h ⊢
  cases hp : p v <;> rw [hp] at h <;> simp_all

theorem parse_opt_pos_irrel {α : Type _} {p : String → Option α} {v : String}
    {pos pos' : Nat} {x : Option α}
    (h : parse_opt p v pos = .ok x) : parse_opt p v pos' = .ok x := by
  by_cases hv : v = ""
  · rw [parse_opt, if_pos hv] at h ⊢
    exact h
  · rw [parse_opt, if_neg hv] at h ⊢
    simp only [decode_value] at h ⊢
    cases hp : p v <;> rw [hp] at h <;> simp_all

theorem parse_category_attrs_pos_irrel : ∀ {attrs : List Attr} {c cat : Category}
    {pos pos' : Nat},
    parse_category_attrs pos attrs c = .ok cat → parse_category_attrs pos' attrs c = .ok cat := by
  intro attrs
  induction attrs with
  | nil => intro c cat pos pos' h; exact h
  | cons a rest ih =>
    intro c cat pos pos' h
    obtain ⟨k, v⟩ := a
    rw [parse_category_attrs.eq_def] at h ⊢
    simp only at h ⊢
    by_cases h1 : k = "id"
    · rw [if_pos h1] at h ⊢
      split at h
      · exact Except.noConfusion h
      · rename_i n heq
        rw [parse_value_pos_irrel heq]
        exact ih h
    · rw [if_neg h1] at h ⊢
      by_cases h2 : k = "parentId"
      · rw [if_pos h2] at h ⊢
        split at h
        · exact Except.noConfusion h
        · rename_i n heq
          rw [parse_value_pos_irrel heq]
          exact ih h
      · rw [if_neg h2] at h ⊢
        exact ih h

theorem parse_delivery_option_attrs_pos_irrel : ∀ {attrs : List Attr}
    {o opt : DeliveryOption} {pos pos' : Nat},
    parse_delivery_option_attrs pos attrs o = .ok opt →
    parse_delivery_option_attrs pos' attrs o = .ok opt := by
  intro attrs
  induction attrs with
  | nil => intro o opt pos pos' h; exact h
  | cons a rest ih =>
    intro o opt pos pos' h
    obtain ⟨k, v⟩ := a
    rw [parse_delivery_option_attrs.eq_def] at h ⊢
    simp only at h ⊢
    by_cases h1 : k = "cost"
    · rw [if_pos h1] at h ⊢
      split at h
      · exact Except.noConfusion h
      · rename_i n heq
        rw [parse_value_pos_irrel heq]
        exact ih h
    · rw [if_neg h1] at h ⊢
      by_cases h2 : k = "days"
      · rw [if_pos h2] at h ⊢
        simp only [decode_value] at h ⊢
        exact ih h
      · rw [if_neg h2] at h ⊢
        by_cases h3 : k = "order-before"
        · rw [if_pos h3] at h ⊢
          split at h
          · exact Except.noConfusion h
          · rename_i ob heq
            rw [parse_opt_pos_irrel heq]
            exact ih h
        · rw [if_neg h3] at h ⊢
          exact ih h

theorem parse_delivery_option_pos_irrel {attrs : List Attr} {pos pos' : Nat}
    {opt : DeliveryOption}
    (h : parse_delivery_option attrs pos = .ok opt) :
    parse_delivery_option attrs pos' = .ok opt :=
  parse_delivery_option_attrs_pos_irrel h

/-- C2, counterexample to the claim as stated: stray text inside a
delivery-options list is not ignored — the sub-loop fails with a
`TextNotFound` syntax error instead of reaching the closing tag. -/
theorem c2_counterexample :
    parse_delivery_options [.text "x", .endTag "delivery-options"] 0 =
      .error (.xml .textNotFound 1) := rfl

/-- C2, amended: the currencies and categories sub-loops read until their own
closing tag, ignore any other content (stray text included), append one
element per matching child in source order, and fail with a syntax error at
end-of-stream; the delivery/pickup-options sub-loop also appends one element
per `option` child and fails at end-of-stream, but it returns at the first
closing tag regardless of its name and fails with a `TextNotFound` syntax
error on any text/CDATA content instead of ignoring it. -/
theorem c2_sub_loops (t n : String) (a : List Attr) (rest : List Event) (pos : Nat)
    (cat : Category) (s₁ : List Event) (p₁ : Nat) (opt : DeliveryOption) :
    (parse_currencies (.text t :: rest) pos = parse_currencies rest (pos + 1)) ∧
    (n ≠ "currencies" →
      parse_currencies (.endTag n :: rest) pos = parse_currencies rest (pos + 1)) ∧
    (parse_currencies (.endTag "currencies" :: rest) pos = .ok ([], rest, pos + 1)) ∧
    (parse_currencies (.empty "currency" a :: rest) pos =
      (parse_currencies rest (pos + 1)).map (fun r => (parse_currency a :: r.1, r.2))) ∧
    (parse_currencies [] pos = .error (.xml (.unexpectedEof "currencies") pos)) ∧
    (parse_categories (.text t :: rest) pos = parse_categories rest (pos + 1)) ∧
    (n ≠ "categories" →
      parse_categories (.endTag n :: rest) pos = parse_categories rest (pos + 1)) ∧
    (parse_categories (.endTag "categories" :: rest) pos = .ok ([], rest, pos + 1)) ∧
    (parse_category a rest (pos + 1) = .ok (cat, s₁, p₁) →
      parse_categories (.start "category" a :: rest) pos =
        (parse_categories s₁ p₁).map (fun r => (cat :: r.1, r.2))) ∧
    (parse_categories [] pos = .error (.xml (.unexpectedEof "categories") pos)) ∧
    (parse_delivery_options (.text t :: rest) pos = .error (.xml .textNotFound (pos + 1))) ∧
    (parse_delivery_options (.endTag n :: rest) pos = .ok ([], rest, pos + 1)) ∧
    (parse_delivery_option a (pos + 1) = .ok opt →
      parse_delivery_options (.start "option" a :: rest) pos =
        (parse_delivery_options rest (pos + 1)).map (fun r => (opt :: r.1, r.2))) ∧
    (parse_delivery_options [] pos = .error (.xml (.unexpectedEof "Delivery options") pos)) := by
  refine ⟨rfl, ?_, rfl, ?_, rfl, ?_, ?_, ?_, ?_, ?_, rfl, rfl, ?_, rfl⟩
  · intro hn
    rw [parse_currencies.eq_def]
    simp only
    rw [if_neg hn]
  · exact parse_currencies_child a rest pos
  · rw [parse_categories.eq_def]
  · intro hn
    rw [parse_categories.eq_def]
    simp only
    rw [if_neg hn]
  · rw [parse_categories.eq_def]
    simp
  · exact fun hcat => parse_categories_child hcat
  · rw [parse_categories.eq_def]
  · exact fun hopt => parse_delivery_options_child hopt

theorem c2_witness :
    (parse_currencies [.endTag "x"] 0 = parse_currencies [] 1) ∧
    (parse_delivery_options [.start "option" [], .endTag "d"] 0 =
      (parse_delivery_options [.endTag "d"] 1).map
        (fun r => ((⟨0, "", none⟩ : DeliveryOption) :: r.1, r.2))) := by
  have h := c2_sub_loops "t" "x" [] [.endTag "d"] 0 ⟨0, 0, ""⟩ [] 0 ⟨0, "", none⟩
  exact ⟨(c2_sub_loops "t" "x" [] [] 0 ⟨0, 0, ""⟩ [] 0 ⟨0, "", none⟩).2.1 (by decide),
         h.2.2.2.2.2.2.2.2.2.2.2.2.1 (by rfl)⟩

/-! ### Well-formed list blocks (input shapes for the order/value claims) -/

/-- A currencies block body: one self-closing `currency` child per attribute
list, in order. -/
def currencyChildren (cs : List (List Attr)) : List Event :=
  cs.map (fun a => .empty "currency" a)

/-- A categories block body: one `category` child per (attributes, text)
pair, each written as open tag, text, close tag, in order. -/
def categoryChildren (cs : List (List Attr × String)) : List Event :=
  cs.foldr (fun c acc => .start "category" c.1 :: .text c.2 :: .endTag "category" :: acc) []

/-- A delivery-options block body: one self-closing `option` child per
attribute list, in order. -/
def optionChildren (cs : List (List Attr)) : List Event :=
  cs.map (fun a => .empty "option" a)

/-- The element-wise expected result of a categories block: each child's
attributes fed to the category attribute parser and its trimmed text as the
name, failing where the attribute parser fails. -/
def expectedCategories : List (List Attr × String) → Except MarketXmlError (List Category)
  | [] => .ok []
  | c :: cs =>
    match parse_category_attrs 0 c.1 {} with
    | .error e => .error e
    | .ok ct => (expectedCategories cs).map (fun l => { ct with name := rustTrim c.2 } :: l)

/-- The element-wise expected result of an options block. -/
def expectedOptions : List (List Attr) → Except MarketXmlError (List DeliveryOption)
  | [] => .ok []
  | a :: cs =>
    match parse_delivery_option a 0 with
    | .error e => .error e
    | .ok o => (expectedOptions cs).map (fun l => o :: l)

theorem parse_category_text_child {a : List Attr} {ct : Category} (txt : String)
    (tail : List Event) (pos : Nat)
    (ha : parse_category_attrs 0 a {} = .ok ct) :
    parse_category a (.text txt :: .endTag "category" :: tail) pos =
      .ok ({ ct with name := rustTrim txt }, tail, pos + 2) := by
  unfold parse_category
  rw [parse_category_attrs_pos_irrel ha]
  rw [show read_text (.text txt :: .endTag "category" :: tail) pos =
    .ok ("" ++ rustTrim txt, tail, pos + 2) from rfl]
  simp

/-- C7: for well-formed list blocks, the parsed `currencies`, `categories`
and `delivery_options` of the shop contain exactly one element per child
element, in source order, with fields equal to the attribute values (and for
categories the trimmed tag text as name); and the shop-field dispatch stores
each parsed list in the corresponding field of the in-progress shop. -/
theorem c7_shop_lists (yc : YmlCatalog) (s : List Event) (pos₀ : Nat) :
    (∀ (cs : List (List Attr)) (rest : List Event) (pos : Nat),
      parse_currencies (currencyChildren cs ++ .endTag "currencies" :: rest) pos =
        .ok (cs.map parse_currency, rest, pos + cs.length + 1)) ∧
    (∀ (cs : List (List Attr × String)) (rest : List Event) (pos : Nat)
        (cats : List Category), expectedCategories cs = .ok cats →
      parse_categories (categoryChildren cs ++ .endTag "categories" :: rest) pos =
        .ok (cats, rest, pos + 3 * cs.length + 1)) ∧
    (∀ (cs : List (List Attr)) (rest : List Event) (pos : Nat)
        (opts : List DeliveryOption), expectedOptions cs = .ok opts →
      parse_delivery_options (optionChildren cs ++ .endTag "delivery-options" :: rest) pos =
        .ok (opts, rest, pos + cs.length + 1)) ∧
    (parse_shop_field "currencies" yc s pos₀ = (parse_currencies s pos₀).map
      (fun r => ({ yc with shop := some { yc.shop.getD {} with currencies := r.1 } }, r.2))) ∧
    (parse_shop_field "categories" yc s pos₀ = (parse_categories s pos₀).map
      (fun r => ({ yc with shop := some { yc.shop.getD {} with categories := r.1 } }, r.2))) ∧
    (parse_shop_field "delivery-options" yc s pos₀ = (parse_delivery_options s pos₀).map
      (fun r => ({ yc with shop := some { yc.shop.getD {} with delivery_options := r.1 } }, r.2))) := by
  refine ⟨?_, ?_, ?_, ?_, ?_, ?_⟩
  · intro cs
    induction cs with
    | nil =>
      intro rest pos
      simp [currencyChildren, parse_currencies]
    | cons a cs ih =>
      intro rest pos
      simp only [currencyChildren, List.map_cons, List.cons_append]
      rw [show (List.map (fun a => Event.empty "currency" a) cs : List Event) =
        currencyChildren cs from rfl]
      rw [parse_currencies_child, ih rest (pos + 1)]
      simp only [Except.map, List.length_cons]
      have : pos + 1 + cs.length + 1 = pos + (cs.length + 1) + 1 := by omega
      rw [this]
  · intro cs
    induction cs with
    | nil =>
      intro rest pos cats hm
      simp only [expectedCategories, Except.ok.injEq] at hm
      subst hm
      simp [categoryChildren, parse_categories.eq_def]
    | cons c cs ih =>
      intro rest pos cats hm
      rw [expectedCategories.eq_def] at hm
      simp only at hm
      split at hm
      · exact Except.noConfusion hm
      · rename_i ct hct
        cases hrec : expectedCategories cs with
        | error e => rw [hrec] at hm; simp [Except.map] at hm
        | ok cats' =>
          rw [hrec] at hm
          simp only [Except.map, Except.ok.injEq] at hm
          subst hm
          simp only [categoryChildren, List.foldr_cons, List.cons_append]
          rw [show (List.foldr (fun c acc =>
              Event.start "category" c.1 :: Event.text c.2 :: Event.endTag "category" :: acc)
              [] cs : List Event) = categoryChildren cs from rfl]
          rw [parse_categories_child
            (parse_category_text_child c.2
              (categoryChildren cs ++ .endTag "categories" :: rest) (pos + 1) hct)]
          rw [show pos + 1 + 2 = pos + 3 from rfl, ih rest (pos + 3) cats' hrec]
          simp only [Except.map, List.length_cons]
          have : pos + 3 + 3 * cs.length + 1 = pos + 3 * (cs.length + 1) + 1 := by omega
          rw [this]
  · intro cs
    induction cs with
    | nil =>
      intro rest pos opts hm
      simp only [expectedOptions, Except.ok.injEq] at hm
      subst hm
      simp [optionChildren, parse_delivery_options]
    | cons a cs ih =>
      intro rest pos opts hm
      rw [expectedOptions.eq_def] at hm
      simp only at hm
      split at hm
      · exact Except.noConfusion hm
      · rename_i o ho
        cases hrec : expectedOptions cs with
        | error e => rw [hrec] at hm; simp [Except.map] at hm
        | ok opts' =>
          rw [hrec] at hm
          simp only [Except.map, Except.ok.injEq] at hm
          subst hm
          simp only [optionChildren, List.map_cons, List.cons_append]
          rw [show (List.map (fun a => Event.empty "option" a) cs : List Event) =
            optionChildren cs from rfl]
          rw [parse_delivery_options_child_empty (parse_delivery_option_pos_irrel ho),
            ih rest (pos + 1) opts' hrec]
          simp only [Except.map, List.length_cons]
          have : pos + 1 + cs.length + 1 = pos + (cs.length + 1) + 1 := by omega
          rw [this]
  · cases hrec : parse_currencies s pos₀ with
    | error e => simp [parse_shop_field, hrec, Except.map]
    | ok r => simp [parse_shop_field, hrec, Except.map]
  · cases hrec : parse_categories s pos₀ with
    | error e => simp [parse_shop_field, hrec, Except.map]
    | ok r => simp [parse_shop_field, hrec, Except.map]
  · cases hrec : parse_delivery_options s pos₀ with
    | error e => simp [parse_shop_field, hrec, Except.map]
    | ok r => simp [parse_shop_field, hrec, Except.map]

theorem c7_witness :
    (parse_currencies
        (currencyChildren [[("id", "RUR"), ("rate", "1")], [("id", "USD"), ("rate", "60")]] ++
          .endTag "currencies" :: []) 0 =
      .ok ([[("id", "RUR"), ("rate", "1")], [("id", "USD"), ("rate", "60")]].map parse_currency,
        [], 3)) ∧
    (parse_categories
        (categoryChildren [([("id", "7")], " Tech ")] ++ .endTag "categories" :: []) 0 =
      .ok ([⟨7, 0, "Tech"⟩], [], 4)) ∧
    (parse_delivery_options
        (optionChildren [[("cost", "200"), ("days", "1")]] ++ .endTag "delivery-options" :: []) 0 =
      .ok ([⟨200, "1", none⟩], [], 2)) := by
  have h := c7_shop_lists {} [] 0
  exact ⟨h.1 [[("id", "RUR"), ("rate", "1")], [("id", "USD"), ("rate", "60")]] [] 0,
         h.2.1 [([("id", "7")], " Tech ")] [] 0 [⟨7, 0, "Tech"⟩] (by decide),
         h.2.2.1 [[("cost", "200"), ("days", "1")]] [] 0 [⟨200, "1", none⟩] (by decide)⟩

/-! ### Text fragments (input shapes for the read-scalar claim) -/

/-- Is this event a text or CDATA fragment? -/
def Event.isFragment : Event → Bool
  | .text _ => true
  | .cdata _ => true
  | _ => false

/-- The character payload of a text/CDATA fragment. -/
def Event.fragmentText : Event → String
  | .text s => s
  | .cdata s => s
  | _ => ""

/-- The text the read-scalar loop accumulates over a fragment run: each
fragment trimmed, then appended to the accumulator in order. -/
def accText (frags : List Event) (acc : String) : String :=
  frags.foldl (fun a e => a ++ rustTrim e.fragmentText) acc

theorem read_text_and_parse_go_fragments {T : Type _}
    (f : String → Nat → Except MarketXmlError T) :
    ∀ (frags : List Event) (acc : String) (t : String) (rest : List Event) (pos : Nat),
    (∀ e ∈ frags, e.isFragment = true) →
    read_text_and_parse_go f acc (frags ++ .endTag t :: rest) pos =
      (match f (accText frags acc) (pos + frags.length + 1) with
       | .ok x => .ok (x, rest, pos + frags.length + 1)
       | .error e => .error e) := by
  intro frags
  induction frags with
  | nil =>
    intro acc t rest pos hf
    rfl
  | cons e fr ih =>
    intro acc t rest pos hf
    have he : e.isFragment = true := hf e (by simp)
    have hfr : ∀ x ∈ fr, x.isFragment = true := fun x hx => hf x (by simp [hx])
    cases e with
    | text s =>
      rw [List.cons_append,
        show read_text_and_parse_go f acc (.text s :: (fr ++ .endTag t :: rest)) pos =
          read_text_and_parse_go f (acc ++ rustTrim s) (fr ++ .endTag t :: rest) (pos + 1)
          from rfl,
        ih (acc ++ rustTrim s) t rest (pos + 1) hfr]
      rw [show accText fr (acc ++ rustTrim s) = accText (Event.text s :: fr) acc from rfl]
      rw [show pos + 1 + fr.length + 1 = pos + (Event.text s :: fr).length + 1 from by
        simp only [List.length_cons]; omega]
    | cdata s =>
      rw [List.cons_append,
        show read_text_and_parse_go f acc (.cdata s :: (fr ++ .endTag t :: rest)) pos =
          read_text_and_parse_go f (acc ++ rustTrim s) (fr ++ .endTag t :: rest) (pos + 1)
          from rfl,
        ih (acc ++ rustTrim s) t rest (pos + 1) hfr]
      rw [show accText fr (acc ++ rustTrim s) = accText (Event.cdata s :: fr) acc from rfl]
      rw [show pos + 1 + fr.length + 1 = pos + (Event.cdata s :: fr).length + 1 from by
        simp only [List.length_cons]; omega]
    | start n a => simp [Event.isFragment] at he
    | empty n a => simp [Event.isFragment] at he
    | endTag n => simp [Event.isFragment] at he
    | comment str => simp [Event.isFragment] at he

/-- C9: the generic read-scalar operation concatenates all text/CDATA
fragments (each trimmed) until the enclosing close event, then applies the
typed coercion to the accumulated text; a required coercion failure is a
`Validation` error carrying the raw accumulated text, an optional read of
empty text is unset, and an optional read of non-empty unparseable text is a
`Validation` error. -/
theorem c9_read_scalar {T α : Type} (f : String → Nat → Except MarketXmlError T)
    (p : String → Option α) (frags : List Event) (t : String) (rest : List Event)
    (pos : Nat) (hf : ∀ e ∈ frags, e.isFragment = true) :
    (read_text_and_parse f (frags ++ .endTag t :: rest) pos =
      (match f (accText frags "") (pos + frags.length + 1) with
       | .ok x => .ok (x, rest, pos + frags.length + 1)
       | .error e => .error e)) ∧
    (p (accText frags "") = none →
      read_value p (frags ++ .endTag t :: rest) pos =
        .error (.validation "parse" (pos + frags.length + 1) (accText frags ""))) ∧
    (accText frags "" = "" →
      read_opt p (frags ++ .endTag t :: rest) pos =
        .ok (none, rest, pos + frags.length + 1)) ∧
    (accText frags "" ≠ "" → p (accText frags "") = none →
      read_opt p (frags ++ .endTag t :: rest) pos =
        .error (.validation "parse" (pos + frags.length + 1) (accText frags ""))) := by
  refine ⟨?_, ?_, ?_, ?_⟩
  · exact read_text_and_parse_go_fragments f frags "" t rest pos hf
  · intro hp
    rw [read_value, read_text_and_parse,
      read_text_and_parse_go_fragments _ frags "" t rest pos hf]
    simp only [hp]
  · intro hemp
    rw [read_opt, read_text_and_parse,
      read_text_and_parse_go_fragments _ frags "" t rest pos hf]
    simp only [if_pos hemp]
  · intro hemp hp
    rw [read_opt, read_text_and_parse,
      read_text_and_parse_go_fragments _ frags "" t rest pos hf]
    simp only [if_neg hemp, hp]

theorem c9_witness :
    (read_value rustParseU64 ([.text " a ", .cdata "b"] ++ .endTag "bid" :: []) 0 =
      .error (.validation "parse" 3 "ab")) ∧
    (read_opt rustParseU64 ([] ++ .endTag "store" :: []) 0 = .ok (none, [], 1)) := by
  have h1 := c9_read_scalar (fun (s : String) (_ : Nat) =>
      (.ok s : Except MarketXmlError String))
    rustParseU64 [.text " a ", .cdata "b"] "bid" [] 0 (by decide)
  have h2 := c9_read_scalar (fun (s : String) (_ : Nat) =>
      (.ok s : Except MarketXmlError String))
    rustParseU64 [] "store" [] 0 (by decide)
  constructor
  · have := h1.2.1 (by decide)
    simpa using this
  · have := h2.2.2.1 (by decide)
    simpa using this

end MarketXml
